import Mathlib

/-!
Verification of the bombadil web-application exerciser against its design
specification. Rust strings are modelled as lists of characters, machine
integers as natural numbers (with an explicit modulus where wrap-around
matters), fallible operations as `Except`/`Option`, and the f64 values that
the action validator inspects as an exact rational together with a marker
for the non-finite values (NaN and the infinities), which the validator
never distinguishes from one another.
-/

namespace Bombadil

/-- Rust `&str` / `String`, modelled as a list of characters. -/
abbrev Str := List Char

/-- Coerce a Lean string literal to the `Str` model. -/
def strL (s : String) : Str := s.data

/-- The ASCII single-quote character, written this way because several CSP
source values start with a quote. -/
def quoteC : Char := '\''

/-- A quoted token fragment: a single quote followed by the given text. -/
def qstr (s : String) : Str := quoteC :: strL s

/-- Rust `str::to_lowercase`, restricted to ASCII (all inputs the claims
touch are ASCII; `Char.toLower` lowers exactly the ASCII uppercase range). -/
def lowerStr (s : Str) : Str := s.map Char.toLower

/-- Rust `str::eq_ignore_ascii_case`. -/
def eqIgnoreAsciiCase (a b : Str) : Bool := lowerStr a == lowerStr b

/-- Rust `str::trim` (whitespace removed from both ends). -/
def trim (s : Str) : Str :=
  ((s.dropWhile Char.isWhitespace).reverse.dropWhile Char.isWhitespace).reverse

/-- Rust `str::split(sep)`: the pieces between occurrences of `sep`,
empty pieces included. -/
def splitOnChar (sep : Char) : Str → List Str
  | [] => [[]]
  | c :: cs =>
    match splitOnChar sep cs with
    | [] => [[c]]
    | p :: ps => if c = sep then [] :: p :: ps else (c :: p) :: ps

/-- Single pass of `split_whitespace`, carrying the current token reversed. -/
def splitWsAux : Str → Str → List Str
  | [], acc => if acc = [] then [] else [acc.reverse]
  | c :: cs, acc =>
    if c.isWhitespace then
      if acc = [] then splitWsAux cs [] else acc.reverse :: splitWsAux cs []
    else splitWsAux cs (c :: acc)

/-- Rust `str::split_whitespace`: maximal runs of non-whitespace characters. -/
def splitWs (s : Str) : List Str := splitWsAux s []

/-- Decimal rendering of a natural number, as in Rust `format!("{}", n)`. -/
def natDecimal (n : Nat) : Str := Nat.toDigits 10 n

/-! ## Coverage bucketing and snapshot rotation

The coverage-read script embedded in `BrowserState::current`
(src/browser/state.rs) buckets each raw edge-hit count, diffs the bucketed
map against the previous snapshot, then rotates `previous <- current` and
replaces `current` with a zeroed array. -/

/-- The JavaScript msb loop with an explicit iteration bound: each pass
halves the number, so `n` passes always suffice. -/
def msbAux : Nat → Nat → Nat
  | 0, _ => 0
  | fuel + 1, n => if n = 0 then 0 else msbAux fuel (n / 2) + 1

/-- The JavaScript msb loop: count how many right shifts empty the number. -/
def msb (n : Nat) : Nat := msbAux n n

/-- The bucket function of the coverage-read script: counts up to 3 are kept,
larger counts map to `min (msb + 1) 8`. -/
def bucket (hits : Nat) : Nat :=
  if hits ≤ 3 then hits else min (msb hits + 1) 8

/-- Result of one coverage read-and-rotate evaluation. -/
structure RotationResult where
  previousAfter : List Nat
  currentAfter : List Nat
  differences : List (Nat × Nat)
deriving DecidableEq

/-- The read-and-rotate evaluation: bucket `current` in place, record the
indices whose bucketed value differs from `previous`, then shift the arrays
(`previous` becomes the bucketed map, `current` a zeroed array of the same
length). -/
def coverageRotate (current previous : List Nat) : RotationResult :=
  let bucketed := current.map bucket
  { previousAfter := bucketed
  , currentAfter := List.replicate current.length 0
  , differences :=
      (List.range current.length).filterMap fun i =>
        let b := bucketed.getD i 0
        if b ≠ previous.getD i 0 then some (i, b) else none }

/-! ## Source identity (src/browser/instrumentation.rs, `source_id`)

The hash itself (`SourceId::hash`) lives in a module that is not among the
provided files; the claims only depend on which string is hashed, so the
hash is a parameter here. -/

/-- Rust `HashMap::get` with an exact key (header maps have unique keys,
so the first match models the lookup). -/
def headersGet (key : Str) (headers : List (Str × Str)) : Option Str :=
  (headers.find? fun p => p.1 == key).map (·.2)

/-- Calculate source ID from etag or body (`source_id` in
src/browser/instrumentation.rs): the `etag` key is looked up exactly. -/
def source_id (hash : Str → Nat) (headers : List (Str × Str)) (body : Str) : Nat :=
  match headersGet (strL "etag") headers with
  | some etag => hash etag
  | none => hash body

/-- Modelled from the spec: `source_id(headers, body)` with the `etag`
header matched case-insensitively, as section 4.1 of the design states. -/
def source_id_spec (hash : Str → Nat) (headers : List (Str × Str)) (body : Str) : Nat :=
  match (headers.find? fun p => eqIgnoreAsciiCase p.1 (strL "etag")).map (·.2) with
  | some etag => hash etag
  | none => hash body

/-! ## f64 model and action conversion (src/specification/js.rs) -/

/-- An f64 as the validator sees it: an exact rational, or one of the
non-finite values (NaN and the infinities, which `to_browser_action` only
ever inspects through `is_finite` and therefore never distinguishes). -/
inductive F64 where
  | nonFinite
  | fin (q : ℚ)
deriving DecidableEq

/-- Rust `f64::is_finite`. -/
def F64.isFinite : F64 → Bool
  | .nonFinite => false
  | .fin _ => true

/-- A point on the page (src/geometry.rs). -/
structure Point where
  x : F64
  y : F64
deriving DecidableEq

/-- The JS-facing action representation (src/specification/js.rs). -/
inductive JsAction where
  | back
  | forward
  | click (name : Str) (content : Option Str) (point : Point)
  | typeText (text : Str) (delayMillis : F64)
  | pressKey (code : F64)
  | scrollUp (origin : Point) (distance : F64)
  | scrollDown (origin : Point) (distance : F64)
  | reload
deriving DecidableEq

/-- The internal browser action type, as consumed by the runner and the
conversion in src/specification/js.rs. -/
inductive BrowserAction where
  | back
  | forward
  | click (name : Str) (content : Option Str) (point : Point)
  | typeText (text : Str) (delayMillis : Nat)
  | pressKey (code : Nat)
  | scrollUp (origin : Point) (distance : F64)
  | scrollDown (origin : Point) (distance : F64)
  | reload
deriving DecidableEq

/-- Rust `f as u64` for a finite non-negative f64: truncate toward zero and
saturate at the top of the range. -/
def rationalToU64 (q : ℚ) : Nat := min q.floor.toNat (2 ^ 64 - 1)

/-- Rust `f as u8` for a finite f64 already checked to be an integer in
[0, 255]. -/
def rationalToU8 (q : ℚ) : Nat := min q.floor.toNat 255

/-- `JsAction::to_browser_action` (src/specification/js.rs): validates
`delay_millis` (non-negative finite) and `code` (finite integer in
[0, 255]); all other variants convert unconditionally. -/
def JsAction.to_browser_action : JsAction → Except Unit BrowserAction
  | .back => .ok .back
  | .forward => .ok .forward
  | .reload => .ok .reload
  | .click name content point => .ok (.click name content point)
  | .typeText text d =>
    match d with
    | .nonFinite => .error ()
    | .fin q => if q < 0 then .error () else .ok (.typeText text (rationalToU64 q))
  | .pressKey c =>
    match c with
    | .nonFinite => .error ()
    | .fin q =>
      if q < 0 ∨ 255 < q ∨ q.den ≠ 1 then .error ()
      else .ok (.pressKey (rationalToU8 q))
  | .scrollUp origin distance => .ok (.scrollUp origin distance)
  | .scrollDown origin distance => .ok (.scrollDown origin distance)

/-- The eight key codes supported by the key table (src/browser/keys.rs). -/
def SUPPORTED_KEY_CODES : List Nat := [8, 9, 13, 27, 37, 38, 39, 40]

/-- Whether the conversion succeeded. -/
def exceptIsOk {E A : Type} : Except E A → Bool
  | .ok _ => true
  | .error _ => false

/-- The validation predicate `to_browser_action` actually enforces: TypeText
needs a non-negative finite delay, PressKey a finite integral code in
[0, 255]; every other variant (scrolls included) always converts. -/
def isValidJsAction : JsAction → Bool
  | .typeText _ .nonFinite => false
  | .typeText _ (.fin q) => decide (0 ≤ q)
  | .pressKey .nonFinite => false
  | .pressKey (.fin q) => decide (0 ≤ q) && decide (q ≤ 255) && (q.den == 1)
  | _ => true

/-! ## Key table and PressKey dispatch (src/browser/keys.rs and the
PressKey arm of `BrowserAction::apply` in src/browser/actions.rs) -/

/-- A key record of the table in src/browser/keys.rs. -/
structure KeyInfo where
  code : Str
  key : Str
  text : Str
deriving DecidableEq

/-- The key table `key_info` (src/browser/keys.rs): for each supported key
the `code` and `key` fields equal the key name and `text` is empty except
for Enter, whose text is a carriage return. -/
def key_info (code : Nat) : Option KeyInfo :=
  match code with
  | 8 => some ⟨strL "Backspace", strL "Backspace", []⟩
  | 9 => some ⟨strL "Tab", strL "Tab", []⟩
  | 13 => some ⟨strL "Enter", strL "Enter", ['\r']⟩
  | 27 => some ⟨strL "Escape", strL "Escape", []⟩
  | 37 => some ⟨strL "ArrowLeft", strL "ArrowLeft", []⟩
  | 38 => some ⟨strL "ArrowUp", strL "ArrowUp", []⟩
  | 39 => some ⟨strL "ArrowRight", strL "ArrowRight", []⟩
  | 40 => some ⟨strL "ArrowDown", strL "ArrowDown", []⟩
  | _ => none

/-- Modelled from the spec: the helper `key_name` that
`BrowserAction::apply` imports lives in a module that is not among the
provided files; per the key-table section of the design it returns the CDP
key name for a supported code and nothing otherwise. -/
def key_name (code : Nat) : Option Str := (key_info code).map (·.code)

/-- The three CDP key event kinds dispatched for a key press. -/
inductive KeyEventKind where
  | rawKeyDown
  | char
  | keyUp
deriving DecidableEq

/-- A dispatched `Input.dispatchKeyEvent` parameter set, with the fields the
PressKey arm populates. -/
structure KeyEvent where
  kind : KeyEventKind
  code : Str
  key : Str
  text : Str
  unmodifiedText : Str
  nativeVirtualKeyCode : Nat
  windowsVirtualKeyCode : Nat
deriving DecidableEq

deriving instance DecidableEq for Except

/-- One event as built by `build_params` inside the PressKey arm of
`BrowserAction::apply` (src/browser/actions.rs): both text fields are the
hard-coded carriage return, for every key and every event kind. -/
def pressKeyEvent (kind : KeyEventKind) (code : Nat) (name : Str) : KeyEvent :=
  { kind := kind
  , code := name
  , key := name
  , text := ['\r']
  , unmodifiedText := ['\r']
  , nativeVirtualKeyCode := code
  , windowsVirtualKeyCode := code }

/-- The event sequence the PressKey arm of `BrowserAction::apply` dispatches:
`rawKeyDown`, `char` and `keyUp` are sent unconditionally, each carrying the
hard-coded text; an unknown code fails before anything is dispatched. -/
def pressKeyEvents (code : Nat) : Except Unit (List KeyEvent) :=
  match key_name code with
  | none => .error ()
  | some name =>
    .ok [pressKeyEvent .rawKeyDown code name,
         pressKeyEvent .char code name,
         pressKeyEvent .keyUp code name]

/-- Modelled from the spec: the PressKey dispatch as the design describes
it — look up the key record, send `rawKeyDown`, then `char` only when the
record text is non-empty, then `keyUp`, each event carrying the record's
text. -/
def pressKeyEventsSpec (code : Nat) : Except Unit (List KeyEvent) :=
  match key_info code with
  | none => .error ()
  | some info =>
    .ok ([{ kind := .rawKeyDown, code := info.code, key := info.key
          , text := info.text, unmodifiedText := info.text
          , nativeVirtualKeyCode := code, windowsVirtualKeyCode := code }] ++
         (if info.text = [] then []
          else [{ kind := .char, code := info.code, key := info.key
                , text := info.text, unmodifiedText := info.text
                , nativeVirtualKeyCode := code, windowsVirtualKeyCode := code }]) ++
         [{ kind := .keyUp, code := info.code, key := info.key
          , text := info.text, unmodifiedText := info.text
          , nativeVirtualKeyCode := code, windowsVirtualKeyCode := code }])

/-! ## Navigation history assembly (src/browser/state.rs) -/

/-- A navigation history entry as assembled in `BrowserState::current`. -/
structure NavigationEntry where
  id : Nat
  title : Str
  url : Str
deriving DecidableEq

/-- The split navigation history of a snapshot. -/
structure NavigationHistory where
  back : List NavigationEntry
  current : NavigationEntry
  forward : List NavigationEntry
deriving DecidableEq

/-- The `is_real_entry` filter of `BrowserState::current`. -/
def isRealEntry (e : NavigationEntry) : Bool := !(e.url == strL "about:blank")

/-- Assembly of the navigation history in `BrowserState::current`: the CDP
entry list is split around `current_index`; the back and forward slices are
filtered through `is_real_entry`, the current entry is indexed directly
(an out-of-range index panics, modelled as `none`). -/
def assembleNavigationHistory (entries : List NavigationEntry) (index : Nat) :
    Option NavigationHistory :=
  match entries[index]? with
  | none => none
  | some cur =>
    some { back := (entries.take index).filter isRealEntry
         , current := cur
         , forward := (entries.drop (index + 1)).filter isRealEntry }

/-! ## Origin containment (src/url.rs and the runner loop) -/

/-- A parsed URL as `is_within_domain` inspects it: the authority is the
host together with an optional explicit port; a URL without a host (such as
`about:blank` or a `mailto:` URL) has no port either, which the `url` crate
guarantees. -/
structure ParsedUrl where
  authority : Option (Str × Option Nat)
deriving DecidableEq

/-- Rust `Url::host`. -/
def urlHost (u : ParsedUrl) : Option Str := u.authority.map Prod.fst

/-- Rust `Url::port` (the explicit port only). -/
def urlPort (u : ParsedUrl) : Option Nat := u.authority.bind Prod.snd

/-- `is_within_domain` (src/url.rs): the host and the port are each compared
only when the examined URL has one. -/
def is_within_domain (uri domain : ParsedUrl) : Bool :=
  ((urlHost uri).isNone || urlHost uri == urlHost domain) &&
    ((urlPort uri).isNone || urlPort uri == urlPort domain)

/-! ## CSP sanitisation (src/browser/instrumentation.rs, `sanitize_csp`) -/

/-- The directive list `sanitize_csp` works on: split the header value on
semicolons, trim each piece, drop the empty ones. -/
def cspDirectives (csp : Str) : List Str :=
  ((splitOnChar ';' csp).map trim).filter (fun d => d ≠ [])

/-- The script-src / script-src-elem detection on a lower-cased directive. -/
def isScriptSrcDir (lower : Str) : Bool :=
  (strL "script-src ").isPrefixOf lower || lower == strL "script-src" ||
    (strL "script-src-elem ").isPrefixOf lower || lower == strL "script-src-elem"

/-- The default-src detection on a lower-cased directive. -/
def isDefaultSrcDir (lower : Str) : Bool :=
  (strL "default-src ").isPrefixOf lower || lower == strL "default-src"

/-- The directive name: the characters before the first whitespace
(`lower.find(char::is_whitespace).unwrap_or(len)` in the source). -/
def directiveName (lower : Str) : Str :=
  lower.takeWhile (fun c => !c.isWhitespace)

/-- The token `'strict-dynamic'`. -/
def strictDynamicTok : Str := qstr "strict-dynamic" ++ [quoteC]

/-- The value filter of `sanitize_csp`: drop hashes, nonces and
`'strict-dynamic'`. -/
def keepCspValue (v : Str) : Bool :=
  let lv := lowerStr v
  !((qstr "sha256-").isPrefixOf lv) && !((qstr "sha384-").isPrefixOf lv) &&
    !((qstr "sha512-").isPrefixOf lv) && !((qstr "nonce-").isPrefixOf lv) &&
    !(lv == strictDynamicTok)

/-- The value part of a directive: everything after the name, trimmed. The
source takes the second half of `splitn(2, char::is_whitespace)` and trims
it; that half differs from the plain remainder only by one leading
whitespace character, which the trim removes either way. -/
def cspValues (d : Str) : Str :=
  trim (d.drop (d.takeWhile (fun c => !c.isWhitespace)).length)

/-- One iteration of the directive loop of `sanitize_csp`: `none` models
`continue` / omission, `some` a push onto the result. -/
def processDirective (hasScriptSrc : Bool) (d : Str) : Option Str :=
  let lower := lowerStr d
  let dname := directiveName lower
  if dname = strL "report-uri" ∨ dname = strL "report-to" then none
  else
    let isScript := isScriptSrcDir lower
    let isDefaultFallback := !hasScriptSrc && isDefaultSrcDir lower
    if isScript || isDefaultFallback then
      let name := d.takeWhile (fun c => !c.isWhitespace)
      let filtered := (splitWs (cspValues d)).filter keepCspValue
      if filtered = [] then none
      else some (name ++ ' ' :: List.intercalate [' '] filtered)
    else some d

/-- `sanitize_csp`: process every directive and rejoin with "; ",
returning `None` when nothing survives. -/
def sanitize_csp (csp : Str) : Option Str :=
  let ds := cspDirectives csp
  let hasScriptSrc := ds.any fun d => isScriptSrcDir (lowerStr d)
  let result := ds.filterMap (processDirective hasScriptSrc)
  if result = [] then none else some (List.intercalate (strL "; ") result)

/-- The per-directive whitespace-token view of a CSP value, used to state
"the same directive list up to whitespace normalisation". -/
def cspTokens (s : Str) : List (List Str) := (cspDirectives s).map splitWs

/-- A CSP value with no hash, nonce or report directive: a script-src
directive carrying only a strict-dynamic keyword and a self keyword. -/
def cspCexInput : Str :=
  strL "script-src " ++ strictDynamicTok ++ [' '] ++ qstr "self" ++ [quoteC]

/-- What `sanitize_csp` returns on `cspCexInput`. -/
def cspCexOutput : Str := strL "script-src " ++ qstr "self" ++ [quoteC]

/-! ## Response-header policy (src/browser/instrumentation.rs) -/

/-- A response header entry (`fetch::HeaderEntry`). -/
structure HeaderEntry where
  name : Str
  value : Str
deriving DecidableEq

/-- The resource types the interception distinguishes; everything beyond
Script and Document falls into the wildcard arm. -/
inductive ResourceType where
  | script
  | document
  | other
deriving DecidableEq

/-- `STRIPPED_RESPONSE_HEADERS`: header names removed from an instrumented
response, matched case-insensitively. -/
def STRIPPED_RESPONSE_HEADERS : List Str :=
  [strL "etag", strL "content-length", strL "content-encoding",
   strL "transfer-encoding", strL "digest"]

/-- Whether a header name matches one of the stripped names. -/
def isStrippedName (n : Str) : Bool :=
  STRIPPED_RESPONSE_HEADERS.any fun s => eqIgnoreAsciiCase n s

/-- Whether a header name is one of the two CSP headers. -/
def isCspName (n : Str) : Bool :=
  eqIgnoreAsciiCase n (strL "content-security-policy") ||
    eqIgnoreAsciiCase n (strL "content-security-policy-report-only")

/-- `build_response_headers`: drop the stripped names, route CSP headers by
resource type (dropped for scripts, sanitised for documents, forwarded
otherwise), and append the synthetic `etag` rendering the source id in
decimal. -/
def build_response_headers (responseHeaders : Option (List HeaderEntry))
    (resourceType : ResourceType) (sourceId : Nat) : List HeaderEntry :=
  ((responseHeaders.getD []).filter
      (fun h => !(isStrippedName h.name))).flatMap
    (fun h =>
      if isCspName h.name then
        match resourceType with
        | .script => []
        | .document =>
          match sanitize_csp h.value with
          | some v => [{ name := h.name, value := v }]
          | none => []
        | .other => [h]
      else [h])
  ++ [{ name := strL "etag", value := natDecimal sourceId }]

/-! ## The weighted action tree (src/browser/actions/tree.rs)

Weights are u16 in the source; the additions in `pick` wrap accordingly,
so the running totals are taken modulo 2^16. The random draw
`rng.random_range(0..weight_total)` panics on an empty range, which the
model renders as `Except.error`; the generator is modelled as a stream of
naturals consumed one draw at a time, the draw into `[0, total)` being the
stream value reduced modulo the total. -/

/-- A weight (u16 in the source). -/
abbrev Weight := Nat

/-- The weighted tree `Tree<T>`. -/
inductive Tree (T : Type) where
  | leaf (x : T)
  | branch (branches : List (Weight × Tree T))

/-- The running total of the first loop of `pick`, with u16 wrap-around. -/
def foldWeights {T : Type} (bs : List (Weight × Tree T)) (init : Nat) : Nat :=
  bs.foldl (fun acc p => (acc + p.1) % 65536) init

/-- The total weight of a branch list as `pick` computes it. -/
def totalWeight {T : Type} (bs : List (Weight × Tree T)) : Nat := foldWeights bs 0

mutual

/-- `Tree::pick`: a leaf returns its value; a branch draws a target below
the total weight (panicking, as `random_range` does, when the total is
zero) and walks the cumulative sum. The result pairs the picked value with
the next unused position of the random stream. -/
def Tree.pick {T : Type} : Tree T → (Nat → Nat) → Nat → Except Unit (Option T × Nat)
  | .leaf x, _, k => .ok (some x, k)
  | .branch bs, g, k =>
    let total := totalWeight bs
    if total = 0 then .error ()
    else Tree.pickLoop bs (g k % total) 0 g (k + 1)

/-- The cumulative-sum walk of `pick`: recurse into the first subtree whose
running total exceeds the target; falling off the end returns `None` as the
source does. -/
def Tree.pickLoop {T : Type} :
    List (Weight × Tree T) → Nat → Nat → (Nat → Nat) → Nat →
      Except Unit (Option T × Nat)
  | [], _, _, _, k => .ok (none, k)
  | (w, t) :: rest, target, current, g, k =>
    let current2 := (current + w) % 65536
    if target < current2 then t.pick g k
    else Tree.pickLoop rest target current2 g k

end

mutual

/-- The values of the leaves of a tree, left to right. -/
def Tree.leaves {T : Type} : Tree T → List T
  | .leaf x => [x]
  | .branch bs => Tree.leavesList bs

/-- The leaves of a branch list. -/
def Tree.leavesList {T : Type} : List (Weight × Tree T) → List T
  | [] => []
  | (_, t) :: rest => t.leaves ++ Tree.leavesList rest

end

mutual

/-- Every branch node of the tree has a positive total weight (so `pick`
never faces an empty random range). -/
def Tree.wellWeighted {T : Type} : Tree T → Bool
  | .leaf _ => true
  | .branch bs => decide (0 < totalWeight bs) && Tree.wellWeightedList bs

/-- `wellWeighted` over a branch list. -/
def Tree.wellWeightedList {T : Type} : List (Weight × Tree T) → Bool
  | [] => true
  | (_, t) :: rest => t.wellWeighted && Tree.wellWeightedList rest

end

mutual

/-- `Tree::prune_to_size`, functionally: the pruned tree together with its
size (a leaf counts 1; a branch keeps the children of positive size and
counts the kept children). -/
def Tree.pruneSize {T : Type} : Tree T → Tree T × Nat
  | .leaf x => (.leaf x, 1)
  | .branch bs =>
    let kept := Tree.pruneList bs
    (.branch kept, kept.length)

/-- The child-pruning loop of `prune_to_size`. -/
def Tree.pruneList {T : Type} : List (Weight × Tree T) → List (Weight × Tree T)
  | [] => []
  | (w, t) :: rest =>
    let p := t.pruneSize
    if p.2 = 0 then Tree.pruneList rest else (w, p.1) :: Tree.pruneList rest

end

/-- `Tree::prune`: `None` when the pruned size is zero. -/
def Tree.prune {T : Type} (t : Tree T) : Option (Tree T) :=
  let p := t.pruneSize
  if p.2 = 0 then none else some p.1

mutual

/-- Modelled from the spec: the runner filters the action tree with
`actions.filter(== Back)`; the `Tree::filter` method is not among the
provided files, so per the runner-loop section of the design it keeps
exactly the leaves satisfying the predicate, a failing leaf becoming an
empty branch for `prune` to drop. -/
def Tree.filterTree {T : Type} (p : T → Bool) : Tree T → Tree T
  | .leaf x => if p x then .leaf x else .branch []
  | .branch bs => .branch (Tree.filterList p bs)

/-- `filterTree` over a branch list. -/
def Tree.filterList {T : Type} (p : T → Bool) :
    List (Weight × Tree T) → List (Weight × Tree T)
  | [] => []
  | (w, t) :: rest => (w, Tree.filterTree p t) :: Tree.filterList p rest

end

mutual

/-- A node count on trees, used as the measure for induction. -/
def Tree.size {T : Type} : Tree T → Nat
  | .leaf _ => 1
  | .branch bs => Tree.sizeList bs + 1

/-- The node count of a branch list. -/
def Tree.sizeList {T : Type} : List (Weight × Tree T) → Nat
  | [] => 0
  | (_, t) :: rest => t.size + Tree.sizeList rest + 1

end

/-- The predicate `matches!(a, BrowserAction::Back)` of the runner loop. -/
def isBackAction : BrowserAction → Bool
  | .back => true
  | _ => false

/-- The origin-containment step of `Runner::run_test` (src/runner.rs): when
the snapshot URL is not within the configured origin, the action tree is
filtered down to `Back` leaves; otherwise it passes through unchanged. -/
def runnerActionTree (actionTree : Tree BrowserAction) (stateUrl origin : ParsedUrl) :
    Tree BrowserAction :=
  if !(is_within_domain stateUrl origin) then actionTree.filterTree isBackAction
  else actionTree

/-- The tail of a runner-loop iteration: apply the origin filter, prune
(`None` models the "no actions available" error), then pick the action that
is dispatched to the browser. -/
def runnerPickAction (actionTree : Tree BrowserAction) (stateUrl origin : ParsedUrl)
    (g : Nat → Nat) (k : Nat) : Option (Except Unit (Option BrowserAction × Nat)) :=
  match (runnerActionTree actionTree stateUrl origin).prune with
  | none => none
  | some t => some (t.pick g k)

/-! ## Theorems -/

theorem bucket_le_eight (hits : Nat) : bucket hits ≤ 8 := by
  unfold bucket
  split
  · omega
  · exact min_le_right _ _

theorem bucket_pos (hits : Nat) (hh : 0 < hits) : 0 < bucket hits := by
  unfold bucket
  split
  · exact hh
  · have : 1 ≤ min (msb hits + 1) 8 := le_min (by omega) (by omega)
    omega

/-- Claim C2, counterexample: a raw hit count of 8 buckets to 5, which is
not in the claimed set {0,1,2,3,4,8,16,32,128}. -/
theorem coverage_bucket_cex :
    (coverageRotate [8] [0]).previousAfter = [5] ∧
    (5 : Nat) ∉ [0, 1, 2, 3, 4, 8, 16, 32, 128] := by
  exact ⟨rfl, by decide⟩

/-- Claim C2 (amended): after every read-and-rotate evaluation, every entry
of the previous edge map lies in {0,...,8} and every entry of the current
edge map is 0; bucketing maps each positive raw hit count into {1,...,8}. -/
theorem coverage_rotate_buckets (current previous : List Nat) :
    (∀ b ∈ (coverageRotate current previous).previousAfter, b ≤ 8) ∧
    (∀ b ∈ (coverageRotate current previous).currentAfter, b = 0) ∧
    (∀ hits, 0 < hits → 0 < bucket hits ∧ bucket hits ≤ 8) := by
  refine ⟨?_, ?_, fun hits hh => ⟨bucket_pos hits hh, bucket_le_eight hits⟩⟩
  · intro b hb
    simp only [coverageRotate, List.mem_map] at hb
    obtain ⟨a, -, rfl⟩ := hb
    exact bucket_le_eight a
  · intro b hb
    simp only [coverageRotate, List.mem_replicate] at hb
    exact hb.2

/-- Claim C6, counterexample: with the length function as the hash, a header
list carrying the etag under the capitalisation `ETag` makes `source_id`
hash the body (length 1) while the case-insensitive reading of the spec
hashes the etag value (length 3). -/
theorem source_id_case_cex :
    source_id (fun s => s.length) [(strL "ETag", strL "abc")] (strL "z") = 1 ∧
    source_id_spec (fun s => s.length) [(strL "ETag", strL "abc")] (strL "z") = 3 ∧
    source_id (fun s => s.length) [(strL "ETag", strL "abc")] (strL "z") ≠
      source_id_spec (fun s => s.length) [(strL "ETag", strL "abc")] (strL "z") := by
  exact ⟨rfl, rfl, by decide⟩

/-- Claim C6 (amended): `source_id` hashes the etag value only when the
header key is exactly the lowercase `etag`; it agrees with the spec's
case-insensitive lookup whenever every header key is already lowercase. -/
theorem source_id_lowercase_agrees (hash : Str → Nat)
    (headers : List (Str × Str)) (body : Str)
    (h : ∀ p ∈ headers, p.1 = lowerStr p.1) :
    source_id hash headers body = source_id_spec hash headers body := by
  unfold source_id source_id_spec headersGet
  have key : headers.find? (fun p => p.1 == strL "etag") =
      headers.find? (fun p => eqIgnoreAsciiCase p.1 (strL "etag")) := by
    induction headers with
    | nil => rfl
    | cons p rest ih =>
      have hp := h p (by simp)
      have hcond : (p.1 == strL "etag") = eqIgnoreAsciiCase p.1 (strL "etag") := by
        unfold eqIgnoreAsciiCase
        have : lowerStr (strL "etag") = strL "etag" := by decide
        rw [this, ← hp]
      rw [List.find?_cons, List.find?_cons, hcond]
      split
      · rfl
      · exact ih fun q hq => h q (by simp [hq])
  rw [key]

theorem source_id_lowercase_agrees_witness :
    source_id (fun s => s.length) [(strL "etag", strL "abc")] (strL "z") =
      source_id_spec (fun s => s.length) [(strL "etag", strL "abc")] (strL "z") :=
  source_id_lowercase_agrees (fun s => s.length) [(strL "etag", strL "abc")]
    (strL "z") (by decide)

/-- Claim C7, counterexample: `to_browser_action` accepts `PressKey` with
code 5, which is not one of the eight supported key codes, and accepts
`ScrollUp` with a non-finite distance, both of which the claim says must be
errors. -/
theorem to_browser_action_cex :
    JsAction.to_browser_action (.pressKey (.fin 5)) = .ok (.pressKey 5) ∧
    (5 : Nat) ∉ SUPPORTED_KEY_CODES ∧
    JsAction.to_browser_action (.scrollUp ⟨.fin 0, .fin 0⟩ .nonFinite) =
      .ok (.scrollUp ⟨.fin 0, .fin 0⟩ .nonFinite) := by
  exact ⟨by decide, by decide, rfl⟩

/-- Claim C7 (amended): `to_browser_action` returns Ok exactly when a
TypeText delay is a non-negative finite number and a PressKey code is a
finite integer in [0, 255]; scroll distances are not validated and the
supported-key-code check is not performed here. -/
theorem to_browser_action_ok_iff (a : JsAction) :
    exceptIsOk a.to_browser_action = isValidJsAction a := by
  cases a with
  | typeText t d =>
    cases d with
    | nonFinite => rfl
    | fin q =>
      by_cases h : q < 0
      · simp [JsAction.to_browser_action, isValidJsAction, exceptIsOk, h,
          not_le.mpr h]
      · simp [JsAction.to_browser_action, isValidJsAction, exceptIsOk, h,
          not_lt.mp h]
  | pressKey c =>
    cases c with
    | nonFinite => rfl
    | fin q =>
      by_cases h : q < 0 ∨ 255 < q ∨ q.den ≠ 1
      · have hfalse : isValidJsAction (.pressKey (.fin q)) = false := by
          rcases h with h | h | h
          · simp [isValidJsAction, not_le.mpr h]
          · simp [isValidJsAction, not_le.mpr h]
          · simp [isValidJsAction, h]
        simp [JsAction.to_browser_action, exceptIsOk, if_pos h, hfalse]
      · have h2 := h
        push_neg at h2
        have c1 : ¬q < 0 := not_lt.mpr h2.1
        have c2 : ¬255 < q := not_lt.mpr h2.2.1
        simp [JsAction.to_browser_action, exceptIsOk, isValidJsAction,
          c1, c2, h2.1, h2.2.1, h2.2.2]
  | back => rfl
  | forward => rfl
  | reload => rfl
  | click n c p => rfl
  | scrollUp o d => rfl
  | scrollDown o d => rfl

/-- Claim C8: at the failing input `PressKey{code: 8}` (Backspace) the
implementation dispatches `rawKeyDown`, `char` and `keyUp` all carrying the
hard-coded text `"\r"`, while the key table of src/browser/keys.rs and the
spec prescribe no `char` event and empty text for Backspace; unknown codes
do fail as specified. -/
theorem press_key_dispatch_bug :
    pressKeyEvents 8 =
      .ok [pressKeyEvent .rawKeyDown 8 (strL "Backspace"),
           pressKeyEvent .char 8 (strL "Backspace"),
           pressKeyEvent .keyUp 8 (strL "Backspace")] ∧
    (pressKeyEvent .char 8 (strL "Backspace")).text = ['\r'] ∧
    pressKeyEventsSpec 8 =
      .ok [⟨.rawKeyDown, strL "Backspace", strL "Backspace", [], [], 8, 8⟩,
           ⟨.keyUp, strL "Backspace", strL "Backspace", [], [], 8, 8⟩] ∧
    pressKeyEvents 8 ≠ pressKeyEventsSpec 8 ∧
    pressKeyEvents 7 = .error () := by
  exact ⟨rfl, rfl, rfl, by decide, rfl⟩

/-- Claim C9, counterexample: when the current CDP entry is `about:blank`
it is kept verbatim, so the assembled navigation history does contain an
`about:blank` entry. -/
theorem navigation_history_cex :
    assembleNavigationHistory [⟨0, [], strL "about:blank"⟩] 0 =
      some ⟨[], ⟨0, [], strL "about:blank"⟩, []⟩ ∧
    (NavigationEntry.url ⟨0, [], strL "about:blank"⟩) = strL "about:blank" := by
  exact ⟨rfl, rfl⟩

/-- Claim C9 (amended): the navigation history is split around the CDP
current index with `about:blank` entries filtered from the back and forward
slices only; the current entry is taken verbatim and may be `about:blank`. -/
theorem navigation_history_split (entries : List NavigationEntry) (index : Nat)
    (nh : NavigationHistory)
    (h : assembleNavigationHistory entries index = some nh) :
    (∀ e ∈ nh.back, e.url ≠ strL "about:blank") ∧
    (∀ e ∈ nh.forward, e.url ≠ strL "about:blank") ∧
    nh.back = (entries.take index).filter isRealEntry ∧
    nh.forward = (entries.drop (index + 1)).filter isRealEntry ∧
    entries[index]? = some nh.current := by
  unfold assembleNavigationHistory at h
  cases he : entries[index]? with
  | none => rw [he] at h; exact absurd h (by simp)
  | some cur =>
    rw [he] at h
    injection h with h2
    subst h2
    refine ⟨?_, ?_, rfl, rfl, rfl⟩
    · intro e he2
      have := (List.mem_filter.mp he2).2
      simpa [isRealEntry] using this
    · intro e he2
      have := (List.mem_filter.mp he2).2
      simpa [isRealEntry] using this

theorem navigation_history_split_witness :
    ([⟨0, [], strL "a"⟩] : List NavigationEntry)[0]? = some ⟨0, [], strL "a"⟩ :=
  (navigation_history_split [⟨0, [], strL "a"⟩] 0
    ⟨[], ⟨0, [], strL "a"⟩, []⟩ rfl).2.2.2.2

/-- Claim C10: `is_within_domain` holds for every URL without a host (such
URLs carry no port either), and for every URL whose host matches the origin
and which has no explicit port; consequently the runner's origin filter
leaves the action tree unchanged on host-less URLs. -/
theorem is_within_domain_hostless (uri domain : ParsedUrl)
    (tree : Tree BrowserAction) :
    (urlHost uri = none → is_within_domain uri domain = true) ∧
    (urlHost uri = urlHost domain → urlPort uri = none →
      is_within_domain uri domain = true) ∧
    (urlHost uri = none → runnerActionTree tree uri domain = tree) := by
  have key : urlHost uri = none → is_within_domain uri domain = true := by
    intro h
    have hp : urlPort uri = none := by
      unfold urlHost at h
      unfold urlPort
      cases ha : uri.authority with
      | none => rfl
      | some a => rw [ha] at h; exact absurd h (by simp)
    simp [is_within_domain, h, hp]
  refine ⟨key, ?_, ?_⟩
  · intro hh hp
    simp [is_within_domain, hh, hp]
  · intro h
    simp [runnerActionTree, key h]

theorem foldWeights_nil {T : Type} (init : Nat) :
    foldWeights ([] : List (Weight × Tree T)) init = init := rfl

theorem foldWeights_cons {T : Type} (w : Weight) (t : Tree T)
    (rest : List (Weight × Tree T)) (init : Nat) :
    foldWeights ((w, t) :: rest) init = foldWeights rest ((init + w) % 65536) := rfl

theorem pickLoop_sound {T : Type} (g : Nat → Nat) (bs : List (Weight × Tree T))
    (hmem : ∀ p ∈ bs, ∀ k,
      (p.2.pick g k = .error () ∨
        ∃ x k2, p.2.pick g k = .ok (some x, k2) ∧ x ∈ p.2.leaves) ∧
      (p.2.wellWeighted = true → p.2.pick g k ≠ .error ())) :
    ∀ target current k, current ≤ target → target < foldWeights bs current →
      (Tree.pickLoop bs target current g k = .error () ∨
        ∃ x k2, Tree.pickLoop bs target current g k = .ok (some x, k2) ∧
          x ∈ Tree.leavesList bs) ∧
      (Tree.wellWeightedList bs = true →
        Tree.pickLoop bs target current g k ≠ .error ()) := by
  induction bs with
  | nil =>
    intro target current k hc hf
    rw [foldWeights_nil] at hf
    omega
  | cons p rest ih =>
    obtain ⟨w, t⟩ := p
    intro target current k hc hf
    rw [foldWeights_cons] at hf
    have hmem2 : ∀ q ∈ rest, ∀ k2,
        (q.2.pick g k2 = .error () ∨
          ∃ x j, q.2.pick g k2 = .ok (some x, j) ∧ x ∈ q.2.leaves) ∧
        (q.2.wellWeighted = true → q.2.pick g k2 ≠ .error ()) :=
      fun q hq => hmem q (by simp [hq])
    have hself := hmem (w, t) (by simp)
    have heq : Tree.pickLoop ((w, t) :: rest) target current g k =
        if target < (current + w) % 65536 then t.pick g k
        else Tree.pickLoop rest target ((current + w) % 65536) g k := rfl
    have hleaves : Tree.leavesList ((w, t) :: rest) =
        t.leaves ++ Tree.leavesList rest := rfl
    have hwell : Tree.wellWeightedList ((w, t) :: rest) =
        (t.wellWeighted && Tree.wellWeightedList rest) := rfl
    by_cases hlt : target < (current + w) % 65536
    · rw [heq, if_pos hlt]
      constructor
      · rcases (hself k).1 with he | ⟨x, k2, hx, hm⟩
        · exact Or.inl he
        · exact Or.inr ⟨x, k2, hx, by rw [hleaves]; exact List.mem_append_left _ hm⟩
      · intro hw
        rw [hwell] at hw
        exact (hself k).2 ((Bool.and_eq_true _ _).mp hw).1
    · rw [heq, if_neg hlt]
      have hih := ih hmem2 target ((current + w) % 65536) k (by omega) hf
      constructor
      · rcases hih.1 with he | ⟨x, k2, hx, hm⟩
        · exact Or.inl he
        · exact Or.inr ⟨x, k2, hx, by rw [hleaves]; exact List.mem_append_right _ hm⟩
      · intro hw
        rw [hwell] at hw
        exact hih.2 ((Bool.and_eq_true _ _).mp hw).2

theorem tree_size_pos {T : Type} (t : Tree T) : 0 < t.size := by
  cases t <;> simp [Tree.size]

theorem size_snd_lt_of_mem {T : Type} (bs : List (Weight × Tree T))
    (p : Weight × Tree T) (hp : p ∈ bs) :
    p.2.size < (Tree.branch bs).size := by
  have key : ∀ (l : List (Weight × Tree T)), p ∈ l → p.2.size < Tree.sizeList l + 1 := by
    intro l
    induction l with
    | nil => intro h; exact absurd h (by simp)
    | cons q rest ih =>
      intro h
      obtain ⟨w, t⟩ := q
      rcases List.mem_cons.mp h with rfl | hr
      · simp [Tree.sizeList]
        omega
      · have := ih hr
        simp [Tree.sizeList]
        omega
  exact key bs hp

theorem pick_master {T : Type} :
    ∀ (n : Nat) (t : Tree T), t.size ≤ n → ∀ (g : Nat → Nat) (k : Nat),
      (t.pick g k = .error () ∨
        ∃ x k2, t.pick g k = .ok (some x, k2) ∧ x ∈ t.leaves) ∧
      (t.wellWeighted = true → t.pick g k ≠ .error ()) := by
  intro n
  induction n with
  | zero =>
    intro t ht
    have := tree_size_pos t
    omega
  | succ n ih =>
    intro t ht g k
    cases t with
    | leaf x =>
      refine ⟨Or.inr ⟨x, k, rfl, by simp [Tree.leaves]⟩, fun _ => by simp [Tree.pick]⟩
    | branch bs =>
      have hmem : ∀ p ∈ bs, ∀ k2,
          (p.2.pick g k2 = .error () ∨
            ∃ x j, p.2.pick g k2 = .ok (some x, j) ∧ x ∈ p.2.leaves) ∧
          (p.2.wellWeighted = true → p.2.pick g k2 ≠ .error ()) := by
        intro p hp k2
        have := size_snd_lt_of_mem bs p hp
        exact ih p.2 (by omega) g k2
      have heq : (Tree.branch bs).pick g k =
          if totalWeight bs = 0 then .error ()
          else Tree.pickLoop bs (g k % totalWeight bs) 0 g (k + 1) := rfl
      have hwell : (Tree.branch bs).wellWeighted =
          (decide (0 < totalWeight bs) && Tree.wellWeightedList bs) := rfl
      by_cases h0 : totalWeight bs = 0
      · rw [heq, if_pos h0]
        refine ⟨Or.inl rfl, fun hw => ?_⟩
        rw [hwell] at hw
        have := ((Bool.and_eq_true _ _).mp hw).1
        simp at this
        omega
      · rw [heq, if_neg h0]
        have htarget : g k % totalWeight bs < totalWeight bs :=
          Nat.mod_lt _ (Nat.pos_of_ne_zero h0)
        have hloop := pickLoop_sound g bs hmem (g k % totalWeight bs) 0 (k + 1)
          (Nat.zero_le _) htarget
        refine ⟨?_, fun hw => ?_⟩
        · rcases hloop.1 with he | ⟨x, k2, hx, hm⟩
          · exact Or.inl he
          · exact Or.inr ⟨x, k2, hx, hm⟩
        · rw [hwell] at hw
          exact hloop.2 ((Bool.and_eq_true _ _).mp hw).2

/-- Claim C1, counterexample: the tree `Branch([(1, Branch([]))])` has total
weight 1 > 0 and no leaves, yet `pick` neither returns a leaf nor `None`:
the inner empty branch makes `random_range(0..0)` panic. -/
theorem tree_pick_cex :
    totalWeight [((1 : Weight), Tree.branch ([] : List (Weight × Tree Nat)))] = 1 ∧
    (Tree.branch [((1 : Weight), Tree.branch ([] : List (Weight × Tree Nat)))]).leaves = [] ∧
    (Tree.branch [((1 : Weight), Tree.branch ([] : List (Weight × Tree Nat)))]).pick
      (fun _ => 0) 0 = .error () := by
  exact ⟨rfl, rfl, rfl⟩

/-- Claim C1 (amended): when every branch node of the tree has positive
total weight, `pick` returns Some of a value whose leaf occurs in the tree,
for every random stream; and on no tree does `pick` ever return `Ok(None)` —
a traversal that reaches a zero-total branch panics instead of returning
`None`. -/
theorem tree_pick_sound {T : Type} (t : Tree T) (g : Nat → Nat) (k : Nat)
    (h : t.wellWeighted = true) :
    (∃ x k2, t.pick g k = .ok (some x, k2) ∧ x ∈ t.leaves) ∧
    ∀ (t2 : Tree T) (g2 : Nat → Nat) (k2 j : Nat), t2.pick g2 k2 ≠ .ok (none, j) := by
  constructor
  · have m := pick_master t.size t (le_refl _) g k
    rcases m.1 with he | hx
    · exact absurd he (m.2 h)
    · exact hx
  · intro t2 g2 k2 j hcontra
    have m := pick_master t2.size t2 (le_refl _) g2 k2
    rcases m.1 with he | ⟨x, k3, hx, -⟩
    · rw [he] at hcontra
      exact Except.noConfusion hcontra
    · rw [hx] at hcontra
      simp at hcontra

theorem tree_pick_sound_witness :
    (Tree.branch [((1 : Weight), Tree.leaf 0), ((1 : Weight), Tree.leaf 1)] :
      Tree Nat).wellWeighted = true ∧
    ((∃ x k2, (Tree.branch [((1 : Weight), Tree.leaf 0), ((1 : Weight), Tree.leaf 1)] :
        Tree Nat).pick (fun _ => 0) 0 = .ok (some x, k2) ∧
      x ∈ (Tree.branch [((1 : Weight), Tree.leaf 0), ((1 : Weight), Tree.leaf 1)] :
        Tree Nat).leaves) ∧
    ∀ (t2 : Tree Nat) (g2 : Nat → Nat) (k2 j : Nat), t2.pick g2 k2 ≠ .ok (none, j)) :=
  ⟨by decide,
   tree_pick_sound (Tree.branch [((1 : Weight), Tree.leaf 0), ((1 : Weight), Tree.leaf 1)])
     (fun _ => 0) 0 (by decide)⟩

theorem pick_mem_of_ok {T : Type} (t : Tree T) (g : Nat → Nat) (k : Nat)
    (x : T) (k2 : Nat) (h : t.pick g k = .ok (some x, k2)) : x ∈ t.leaves := by
  have m := (pick_master t.size t (le_refl _) g k).1
  rcases m with he | ⟨y, j, hy, hm⟩
  · rw [he] at h
    exact Except.noConfusion h
  · rw [hy] at h
    simp only [Except.ok.injEq, Prod.mk.injEq, Option.some.injEq] at h
    exact h.1 ▸ hm

theorem pruneList_leaves_sub {T : Type} (bs : List (Weight × Tree T))
    (hmem : ∀ p ∈ bs, ∀ x, x ∈ p.2.pruneSize.1.leaves → x ∈ p.2.leaves) :
    ∀ x, x ∈ Tree.leavesList (Tree.pruneList bs) → x ∈ Tree.leavesList bs := by
  induction bs with
  | nil => intro x hx; exact hx
  | cons p rest ih =>
    obtain ⟨w, t⟩ := p
    intro x hx
    have hmem2 : ∀ q ∈ rest, ∀ y, y ∈ q.2.pruneSize.1.leaves → y ∈ q.2.leaves :=
      fun q hq => hmem q (by simp [hq])
    have heq : Tree.pruneList ((w, t) :: rest) =
        if t.pruneSize.2 = 0 then Tree.pruneList rest
        else (w, t.pruneSize.1) :: Tree.pruneList rest := rfl
    have hleaves : Tree.leavesList ((w, t) :: rest) =
        t.leaves ++ Tree.leavesList rest := rfl
    rw [hleaves]
    by_cases h0 : t.pruneSize.2 = 0
    · rw [heq, if_pos h0] at hx
      exact List.mem_append_right _ (ih hmem2 x hx)
    · rw [heq, if_neg h0] at hx
      have hleaves2 : Tree.leavesList ((w, t.pruneSize.1) :: Tree.pruneList rest) =
          t.pruneSize.1.leaves ++ Tree.leavesList (Tree.pruneList rest) := rfl
      rw [hleaves2] at hx
      rcases List.mem_append.mp hx with hl | hr
      · exact List.mem_append_left _ (hmem (w, t) (by simp) x hl)
      · exact List.mem_append_right _ (ih hmem2 x hr)

theorem pruneSize_leaves_sub {T : Type} :
    ∀ (n : Nat) (t : Tree T), t.size ≤ n →
      ∀ x, x ∈ t.pruneSize.1.leaves → x ∈ t.leaves := by
  intro n
  induction n with
  | zero =>
    intro t ht
    have := tree_size_pos t
    omega
  | succ n ih =>
    intro t ht x hx
    cases t with
    | leaf v => exact hx
    | branch bs =>
      have hmem : ∀ p ∈ bs, ∀ y, y ∈ p.2.pruneSize.1.leaves → y ∈ p.2.leaves := by
        intro p hp y
        have := size_snd_lt_of_mem bs p hp
        exact ih p.2 (by omega) y
      have heq : (Tree.branch bs).pruneSize.1.leaves =
          Tree.leavesList (Tree.pruneList bs) := rfl
      rw [heq] at hx
      exact pruneList_leaves_sub bs hmem x hx

theorem prune_leaves_sub {T : Type} (t t2 : Tree T) (h : t.prune = some t2) :
    ∀ x, x ∈ t2.leaves → x ∈ t.leaves := by
  unfold Tree.prune at h
  by_cases h0 : t.pruneSize.2 = 0
  · rw [if_pos h0] at h
    exact absurd h (by simp)
  · rw [if_neg h0] at h
    injection h with h2
    subst h2
    exact pruneSize_leaves_sub t.size t (le_refl _)

theorem filterList_leaves {T : Type} (p : T → Bool) (bs : List (Weight × Tree T))
    (hmem : ∀ q ∈ bs, ∀ x, x ∈ (q.2.filterTree p).leaves → p x = true) :
    ∀ x, x ∈ Tree.leavesList (Tree.filterList p bs) → p x = true := by
  induction bs with
  | nil => intro x hx; exact absurd hx (by simp [Tree.leavesList])
  | cons q rest ih =>
    obtain ⟨w, t⟩ := q
    intro x hx
    have heq : Tree.leavesList (Tree.filterList p ((w, t) :: rest)) =
        (t.filterTree p).leaves ++ Tree.leavesList (Tree.filterList p rest) := rfl
    rw [heq] at hx
    rcases List.mem_append.mp hx with hl | hr
    · exact hmem (w, t) (by simp) x hl
    · exact ih (fun q hq => hmem q (by simp [hq])) x hr

theorem filterTree_leaves {T : Type} :
    ∀ (n : Nat) (t : Tree T), t.size ≤ n →
      ∀ (p : T → Bool) (x : T), x ∈ (t.filterTree p).leaves → p x = true := by
  intro n
  induction n with
  | zero =>
    intro t ht
    have := tree_size_pos t
    omega
  | succ n ih =>
    intro t ht p x hx
    cases t with
    | leaf v =>
      have heq : (Tree.leaf v).filterTree p =
          if p v then Tree.leaf v else Tree.branch [] := rfl
      rw [heq] at hx
      by_cases hv : p v
      · rw [if_pos hv] at hx
        have : x = v := by simpa [Tree.leaves] using hx
        exact this ▸ hv
      · rw [if_neg hv] at hx
        exact absurd hx (by simp [Tree.leaves, Tree.leavesList])
    | branch bs =>
      have hmem : ∀ q ∈ bs, ∀ y, y ∈ (q.2.filterTree p).leaves → p y = true := by
        intro q hq y
        have := size_snd_lt_of_mem bs q hq
        exact ih q.2 (by omega) p y
      exact filterList_leaves p bs hmem x hx

/-- Claim C5: in a runner-loop iteration whose snapshot URL is outside the
configured origin, the action tree is filtered so that whatever action the
pruned tree's pick then dispatches is `Back`. -/
theorem runner_origin_containment (tree : Tree BrowserAction)
    (url origin : ParsedUrl) (g : Nat → Nat) (k : Nat) (a : BrowserAction) (k2 : Nat)
    (hout : is_within_domain url origin = false)
    (hpick : runnerPickAction tree url origin g k = some (.ok (some a, k2))) :
    a = .back := by
  unfold runnerPickAction at hpick
  cases hp : (runnerActionTree tree url origin).prune with
  | none =>
    rw [hp] at hpick
    exact absurd hpick (by simp)
  | some t2 =>
    rw [hp] at hpick
    injection hpick with h3
    have hmem : a ∈ t2.leaves := pick_mem_of_ok t2 g k a k2 h3
    unfold runnerActionTree at hp
    rw [hout] at hp
    simp only [Bool.not_false, if_pos] at hp
    have hmem2 : a ∈ (tree.filterTree isBackAction).leaves :=
      prune_leaves_sub _ t2 hp a hmem
    have hback : isBackAction a = true :=
      filterTree_leaves tree.size tree (le_refl _) isBackAction a hmem2
    cases a
    case back => rfl
    all_goals simp [isBackAction] at hback

theorem runner_origin_containment_witness :
    is_within_domain ⟨some (strL "a", none)⟩ ⟨some (strL "b", none)⟩ = false ∧
    BrowserAction.back = BrowserAction.back :=
  ⟨by decide,
   runner_origin_containment
     (Tree.branch [((1 : Weight), Tree.leaf .back), ((1 : Weight), Tree.leaf .reload)])
     ⟨some (strL "a", none)⟩ ⟨some (strL "b", none)⟩ (fun _ => 0) 0 .back 1
     (by decide) (by rfl)⟩

/-- Claim C3: `build_response_headers` emits no header whose name matches a
stripped name except the one synthetic `etag` carrying the decimal source
id, and every `content-type` entry of the input survives verbatim. -/
theorem build_response_headers_closure (hs : Option (List HeaderEntry))
    (rt : ResourceType) (sid : Nat) :
    (build_response_headers hs rt sid).filter (fun h => isStrippedName h.name) =
      [{ name := strL "etag", value := natDecimal sid }] ∧
    ∀ h ∈ hs.getD [], eqIgnoreAsciiCase h.name (strL "content-type") = true →
      h ∈ build_response_headers hs rt sid := by
  constructor
  · rw [build_response_headers, List.filter_append]
    have h2 : ([{ name := strL "etag", value := natDecimal sid }] :
        List HeaderEntry).filter (fun h => isStrippedName h.name) =
        [{ name := strL "etag", value := natDecimal sid }] := by
      have : isStrippedName (strL "etag") = true := by decide
      simp [List.filter, this]
    rw [h2]
    have h1 : (((hs.getD []).filter (fun h => !(isStrippedName h.name))).flatMap
        (fun h =>
          if isCspName h.name then
            match rt with
            | .script => []
            | .document =>
              match sanitize_csp h.value with
              | some v => [{ name := h.name, value := v }]
              | none => []
            | .other => [h]
          else [h])).filter (fun h => isStrippedName h.name) = [] := by
      rw [List.filter_eq_nil_iff]
      intro x hx
      obtain ⟨h, hh, hxf⟩ := List.mem_flatMap.mp hx
      have hstrip : isStrippedName h.name = false := by
        have := (List.mem_filter.mp hh).2
        simpa using this
      have hname : x.name = h.name := by
        by_cases hcsp : isCspName h.name = true
        · rw [if_pos hcsp] at hxf
          cases rt with
          | script => exact absurd hxf (by simp)
          | document =>
            cases hsan : sanitize_csp h.value with
            | none => rw [hsan] at hxf; exact absurd hxf (by simp)
            | some v =>
              rw [hsan] at hxf
              have : x = { name := h.name, value := v } := by simpa using hxf
              rw [this]
          | other =>
            have : x = h := by simpa using hxf
            rw [this]
        · rw [if_neg hcsp] at hxf
          have : x = h := by simpa using hxf
          rw [this]
      rw [hname, hstrip]
      simp
    rw [h1]
    rfl
  · intro h hh hct
    have hl : lowerStr h.name = strL "content-type" := by
      have he := eq_of_beq hct
      have : lowerStr (strL "content-type") = strL "content-type" := by decide
      rw [← this]
      exact he
    have hstrip : isStrippedName h.name = false := by
      simp only [isStrippedName, STRIPPED_RESPONSE_HEADERS, eqIgnoreAsciiCase, hl]
      decide
    have hcsp : isCspName h.name = false := by
      simp only [isCspName, eqIgnoreAsciiCase, hl]
      decide
    rw [build_response_headers]
    refine List.mem_append_left _ (List.mem_flatMap.mpr ⟨h, ?_, ?_⟩)
    · exact List.mem_filter.mpr ⟨hh, by simp [hstrip]⟩
    · simp [hcsp]

theorem char_toNat_ofNat (n : Nat) (h : n.isValidChar) : (Char.ofNat n).toNat = n := by
  unfold Char.ofNat
  rw [dif_pos h]
  rfl

theorem char_ne_of_toNat_ne (c d : Char) (h : c.toNat ≠ d.toNat) : c ≠ d :=
  fun he => h (he ▸ rfl)

theorem ws_eq_false_of_toNat (c : Char) (h32 : c.toNat ≠ 32) (h9 : c.toNat ≠ 9)
    (h13 : c.toNat ≠ 13) (h10 : c.toNat ≠ 10) : c.isWhitespace = false := by
  simp only [Char.isWhitespace, Bool.or_eq_false_iff, decide_eq_false_iff_not]
  exact ⟨⟨⟨char_ne_of_toNat_ne c ' ' h32, char_ne_of_toNat_ne c '\t' h9⟩,
    char_ne_of_toNat_ne c '\r' h13⟩, char_ne_of_toNat_ne c '\n' h10⟩

theorem toLower_isWhitespace (c : Char) :
    (Char.toLower c).isWhitespace = c.isWhitespace := by
  unfold Char.toLower
  by_cases h : c.toNat ≥ 65 ∧ c.toNat ≤ 90
  · rw [if_pos h]
    have hv : (c.toNat + 32).isValidChar := by
      left
      omega
    have ht := char_toNat_ofNat (c.toNat + 32) hv
    rw [ws_eq_false_of_toNat c (by omega) (by omega) (by omega) (by omega),
      ws_eq_false_of_toNat (Char.ofNat (c.toNat + 32)) (by omega) (by omega)
        (by omega) (by omega)]
  · rw [if_neg h]

theorem lowerStr_append (a b : Str) : lowerStr (a ++ b) = lowerStr a ++ lowerStr b :=
  List.map_append Char.toLower a b

theorem lowerStr_cons (c : Char) (s : Str) :
    lowerStr (c :: s) = Char.toLower c :: lowerStr s := rfl

theorem takeWhile_lowerStr (d : Str) :
    (lowerStr d).takeWhile (fun c => !c.isWhitespace) =
      lowerStr (d.takeWhile (fun c => !c.isWhitespace)) := by
  unfold lowerStr
  rw [List.takeWhile_map]
  have hp : ((fun c => !c.isWhitespace) ∘ Char.toLower) =
      (fun c : Char => !c.isWhitespace) := by
    funext c
    simp [Function.comp, toLower_isWhitespace]
  rw [hp]

theorem trim_cons_ws (c : Char) (s : Str) (hc : c.isWhitespace = true) :
    trim (c :: s) = trim s := by
  simp [trim, List.dropWhile_cons, hc]

theorem trim_subset (s : Str) (c : Char) (h : c ∈ trim s) : c ∈ s := by
  unfold trim at h
  rw [List.mem_reverse] at h
  have h2 := (List.dropWhile_sublist _).mem h
  rw [List.mem_reverse] at h2
  exact (List.dropWhile_sublist _).mem h2

theorem trim_length_le (s : Str) : (trim s).length ≤ s.length := by
  unfold trim
  calc ((s.dropWhile Char.isWhitespace).reverse.dropWhile Char.isWhitespace).reverse.length
      = ((s.dropWhile Char.isWhitespace).reverse.dropWhile Char.isWhitespace).length := by
        rw [List.length_reverse]
    _ ≤ (s.dropWhile Char.isWhitespace).reverse.length :=
        (List.dropWhile_sublist _).length_le
    _ = (s.dropWhile Char.isWhitespace).length := by rw [List.length_reverse]
    _ ≤ s.length := (List.dropWhile_sublist _).length_le

theorem head?_dropWhile_not (p : Char → Bool) (s : Str) (c : Char)
    (h : (s.dropWhile p).head? = some c) : p c = false := by
  induction s with
  | nil => exact absurd h (by simp)
  | cons a rest ih =>
    rw [List.dropWhile_cons] at h
    by_cases ha : p a = true
    · rw [if_pos ha] at h
      exact ih h
    · rw [if_neg ha] at h
      injection h with h2
      rw [← h2]
      exact Bool.not_eq_true _ ▸ (by simpa using ha)

theorem prefix_head? (a b : Str) (hp : b <+: a) (c : Char) (h : b.head? = some c) :
    a.head? = some c := by
  obtain ⟨t, rfl⟩ := hp
  cases b with
  | nil => exact absurd h (by simp)
  | cons x xs => simpa using h

theorem trim_prefix_dropWhile (s : Str) :
    trim s <+: s.dropWhile Char.isWhitespace := by
  unfold trim
  have h1 : ((s.dropWhile Char.isWhitespace).reverse.dropWhile Char.isWhitespace) <:+
      (s.dropWhile Char.isWhitespace).reverse := List.dropWhile_suffix _
  have := List.reverse_prefix.mpr h1
  simpa using this

theorem trim_head?_not_ws (s : Str) (c : Char) (h : (trim s).head? = some c) :
    c.isWhitespace = false := by
  have hpre := trim_prefix_dropWhile s
  have h2 := prefix_head? _ _ hpre c h
  exact head?_dropWhile_not _ _ _ h2

theorem trim_getLast?_not_ws (s : Str) (c : Char) (h : (trim s).getLast? = some c) :
    c.isWhitespace = false := by
  unfold trim at h
  rw [← List.head?_reverse, List.reverse_reverse] at h
  exact head?_dropWhile_not _ _ _ h

theorem trim_eq_self (s : Str)
    (hh : ∀ c, s.head? = some c → c.isWhitespace = false)
    (hl : ∀ c, s.getLast? = some c → c.isWhitespace = false) : trim s = s := by
  have step1 : s.dropWhile Char.isWhitespace = s := by
    cases s with
    | nil => rfl
    | cons c cs =>
      rw [List.dropWhile_cons, if_neg]
      rw [hh c rfl]
      simp
  have step2 : s.reverse.dropWhile Char.isWhitespace = s.reverse := by
    cases hs : s.reverse with
    | nil => rfl
    | cons c cs =>
      rw [List.dropWhile_cons, if_neg]
      have : s.reverse.head? = some c := by rw [hs]; rfl
      rw [List.head?_reverse] at this
      rw [hl c this]
      simp
  unfold trim
  rw [step1, step2, List.reverse_reverse]

theorem trim_trim (s : Str) : trim (trim s) = trim s :=
  trim_eq_self (trim s) (trim_head?_not_ws s) (trim_getLast?_not_ws s)

theorem head_not_ws_of_trim_eq (d : Str) (ht : trim d = d) (c : Char) (cs : Str)
    (hd : d = c :: cs) : c.isWhitespace = false := by
  apply trim_head?_not_ws d
  rw [ht, hd]
  rfl

theorem splitOnChar_cons_eq (sep c : Char) (cs : Str) (p : Str) (ps : List Str)
    (h : splitOnChar sep cs = p :: ps) :
    splitOnChar sep (c :: cs) =
      if c = sep then [] :: p :: ps else (c :: p) :: ps := by
  rw [splitOnChar, h]

theorem splitOnChar_ne_nil (sep : Char) (s : Str) : splitOnChar sep s ≠ [] := by
  cases s with
  | nil => simp [splitOnChar]
  | cons c cs =>
    cases h : splitOnChar sep cs with
    | nil => exact absurd h (splitOnChar_ne_nil sep cs)
    | cons p ps =>
      rw [splitOnChar_cons_eq sep c cs p ps h]
      by_cases hc : c = sep
      · rw [if_pos hc]
        simp
      · rw [if_neg hc]
        simp

theorem splitOnChar_chars (sep : Char) (s : Str) :
    ∀ p ∈ splitOnChar sep s, ∀ c ∈ p, c ≠ sep ∧ c ∈ s := by
  induction s with
  | nil =>
    intro p hp c hc
    simp [splitOnChar] at hp
    subst hp
    exact absurd hc (by simp)
  | cons a rest ih =>
    intro p hp c hc
    cases h : splitOnChar sep rest with
    | nil => exact absurd h (splitOnChar_ne_nil sep rest)
    | cons q qs =>
      rw [splitOnChar_cons_eq sep a rest q qs h] at hp
      have hq : q ∈ splitOnChar sep rest := by rw [h]; simp
      have hqs : ∀ r ∈ qs, r ∈ splitOnChar sep rest := by
        intro r hr
        rw [h]
        simp [hr]
      by_cases ha : a = sep
      · rw [if_pos ha] at hp
        rcases List.mem_cons.mp hp with rfl | hp2
        · exact absurd hc (by simp)
        · rcases List.mem_cons.mp hp2 with rfl | hp3
          · have := ih p hq c hc
            exact ⟨this.1, by simp [this.2]⟩
          · have := ih p (hqs p hp3) c hc
            exact ⟨this.1, by simp [this.2]⟩
      · rw [if_neg ha] at hp
        rcases List.mem_cons.mp hp with rfl | hp2
        · rcases List.mem_cons.mp hc with rfl | hc2
          · exact ⟨ha, by simp⟩
          · have := ih q hq c hc2
            exact ⟨this.1, by simp [this.2]⟩
        · have := ih p (hqs p hp2) c hc
          exact ⟨this.1, by simp [this.2]⟩

theorem splitOnChar_no_sep (sep : Char) (a : Str) (h : ∀ c ∈ a, c ≠ sep) :
    splitOnChar sep a = [a] := by
  induction a with
  | nil => rfl
  | cons c cs ih =>
    rw [splitOnChar_cons_eq sep c cs cs [] (ih fun d hd => h d (by simp [hd])),
      if_neg (h c (by simp))]

theorem splitOnChar_append (sep : Char) (a b : Str) (h : ∀ c ∈ a, c ≠ sep) :
    splitOnChar sep (a ++ sep :: b) = a :: splitOnChar sep b := by
  induction a with
  | nil =>
    rw [List.nil_append]
    cases hb : splitOnChar sep b with
    | nil => exact absurd hb (splitOnChar_ne_nil sep b)
    | cons p ps =>
      rw [splitOnChar_cons_eq sep sep b p ps hb, if_pos rfl]
  | cons c cs ih =>
    have h2 : ∀ d ∈ cs, d ≠ sep := fun d hd => h d (by simp [hd])
    cases hx : splitOnChar sep (cs ++ sep :: b) with
    | nil => exact absurd hx (splitOnChar_ne_nil sep _)
    | cons p ps =>
      have hcs : p :: ps = cs :: splitOnChar sep b := by rw [← hx, ih h2]
      rw [List.cons_append, splitOnChar_cons_eq sep c _ p ps hx,
        if_neg (h c (by simp))]
      injection hcs with hp hps
      rw [hp, hps]

theorem splitWsAux_token (t : Str) (hT : ∀ c ∈ t, c.isWhitespace = false) :
    ∀ (s acc : Str), splitWsAux (t ++ s) acc = splitWsAux s (t.reverse ++ acc) := by
  induction t with
  | nil => intro s acc; rfl
  | cons c cs ih =>
    intro s acc
    have hc : c.isWhitespace = false := hT c (by simp)
    have hcs : ∀ d ∈ cs, d.isWhitespace = false := fun d hd => hT d (by simp [hd])
    rw [List.cons_append, splitWsAux, if_neg (by simp [hc]), ih hcs s (c :: acc)]
    congr 1
    simp

theorem splitWsAux_all_ws (t : Str) (hT : ∀ c ∈ t, c.isWhitespace = true) :
    ∀ acc : Str, splitWsAux t acc = if acc = [] then [] else [acc.reverse] := by
  induction t with
  | nil => intro acc; rfl
  | cons c cs ih =>
    intro acc
    have hc : c.isWhitespace = true := hT c (by simp)
    have hcs : ∀ d ∈ cs, d.isWhitespace = true := fun d hd => hT d (by simp [hd])
    rw [splitWsAux, if_pos hc, ih hcs]
    by_cases ha : acc = []
    · rw [if_pos ha, if_pos ha, if_pos rfl]
    · rw [if_neg ha, if_neg ha, if_pos rfl]

theorem splitWsAux_append_ws (t : Str) (hT : ∀ c ∈ t, c.isWhitespace = true) :
    ∀ (s acc : Str), splitWsAux (s ++ t) acc = splitWsAux s acc := by
  intro s
  induction s with
  | nil =>
    intro acc
    rw [List.nil_append, splitWsAux_all_ws t hT acc]
    rfl
  | cons c cs ih =>
    intro acc
    by_cases hc : c.isWhitespace = true
    · rw [List.cons_append, splitWsAux, if_pos hc, splitWsAux, if_pos hc]
      by_cases ha : acc = []
      · rw [if_pos ha, if_pos ha, ih]
      · rw [if_neg ha, if_neg ha, ih]
    · rw [List.cons_append, splitWsAux, if_neg hc, splitWsAux, if_neg hc, ih]

theorem splitWs_cons_ws (c : Char) (s : Str) (hc : c.isWhitespace = true) :
    splitWs (c :: s) = splitWs s := by
  rw [splitWs, splitWsAux, if_pos hc, if_pos rfl]
  rfl

theorem splitWs_dropWhile (s : Str) :
    splitWs (s.dropWhile Char.isWhitespace) = splitWs s := by
  induction s with
  | nil => rfl
  | cons c cs ih =>
    rw [List.dropWhile_cons]
    by_cases hc : c.isWhitespace = true
    · rw [if_pos hc, ih, splitWs_cons_ws c cs hc]
    · rw [if_neg hc]

theorem splitWs_token_cons (t : Str) (c : Char) (s : Str) (ht : t ≠ [])
    (hT : ∀ d ∈ t, d.isWhitespace = false) (hc : c.isWhitespace = true) :
    splitWs (t ++ c :: s) = t :: splitWs s := by
  rw [splitWs, splitWsAux_token t hT (c :: s) [], splitWsAux, if_pos hc,
    List.append_nil, if_neg (by simp [ht]), List.reverse_reverse]
  rfl

theorem splitWs_single (t : Str) (ht : t ≠ [])
    (hT : ∀ d ∈ t, d.isWhitespace = false) : splitWs t = [t] := by
  have : t = t ++ [] := by simp
  rw [splitWs, this, splitWsAux_token t hT [] [], splitWsAux, List.append_nil,
    if_neg (by simp [ht]), List.reverse_reverse]
  simp

theorem splitWs_intercalate (toks : List Str)
    (h : ∀ u ∈ toks, u ≠ [] ∧ ∀ c ∈ u, c.isWhitespace = false) :
    splitWs (List.intercalate [' '] toks) = toks := by
  induction toks with
  | nil => rfl
  | cons t rest ih =>
    cases rest with
    | nil =>
      have ht := h t (by simp)
      rw [List.intercalate, List.intersperse_singleton, List.flatten_cons,
        List.flatten_nil, List.append_nil, splitWs_single t ht.1 ht.2]
    | cons t2 rest2 =>
      have ht := h t (by simp)
      have h2 : ∀ u ∈ t2 :: rest2, u ≠ [] ∧ ∀ c ∈ u, c.isWhitespace = false :=
        fun u hu => h u (by simp [List.mem_cons.mp hu])
      have hshape : List.intercalate [' '] (t :: t2 :: rest2) =
          t ++ ' ' :: List.intercalate [' '] (t2 :: rest2) := by
        rw [List.intercalate, List.intersperse_cons_cons, List.flatten_cons,
          List.flatten_cons, List.intercalate]
        simp
      rw [hshape, splitWs_token_cons t ' ' _ ht.1 ht.2 (by decide), ih h2]

theorem splitWsAux_mem :
    ∀ (s acc : Str), (∀ c ∈ acc, c.isWhitespace = false) →
      ∀ u ∈ splitWsAux s acc, u ≠ [] ∧
        ∀ c ∈ u, c.isWhitespace = false ∧ (c ∈ s ∨ c ∈ acc) := by
  intro s
  induction s with
  | nil =>
    intro acc hacc u hu
    rw [splitWsAux] at hu
    by_cases ha : acc = []
    · rw [if_pos ha] at hu
      exact absurd hu (by simp)
    · rw [if_neg ha] at hu
      have hu2 : u = acc.reverse := by simpa using hu
      subst hu2
      refine ⟨by simp [ha], fun c hc => ?_⟩
      rw [List.mem_reverse] at hc
      exact ⟨hacc c hc, Or.inr hc⟩
  | cons a rest ih =>
    intro acc hacc u hu
    rw [splitWsAux] at hu
    by_cases hws : a.isWhitespace = true
    · rw [if_pos hws] at hu
      by_cases ha : acc = []
      · rw [if_pos ha] at hu
        have := ih [] (by simp) u hu
        exact ⟨this.1, fun c hc => ⟨(this.2 c hc).1, by
          rcases (this.2 c hc).2 with h | h
          · exact Or.inl (by simp [h])
          · exact absurd h (by simp)⟩⟩
      · rw [if_neg ha] at hu
        rcases List.mem_cons.mp hu with rfl | hu2
        · refine ⟨by simp [ha], fun c hc => ?_⟩
          rw [List.mem_reverse] at hc
          exact ⟨hacc c hc, Or.inr hc⟩
        · have := ih [] (by simp) u hu2
          exact ⟨this.1, fun c hc => ⟨(this.2 c hc).1, by
            rcases (this.2 c hc).2 with h | h
            · exact Or.inl (by simp [h])
            · exact absurd h (by simp)⟩⟩
    · rw [if_neg hws] at hu
      have hacc2 : ∀ c ∈ a :: acc, c.isWhitespace = false := by
        intro c hc
        rcases List.mem_cons.mp hc with rfl | hc2
        · simpa using hws
        · exact hacc c hc2
      have := ih (a :: acc) hacc2 u hu
      refine ⟨this.1, fun c hc => ⟨(this.2 c hc).1, ?_⟩⟩
      rcases (this.2 c hc).2 with h | h
      · exact Or.inl (by simp [h])
      · rcases List.mem_cons.mp h with rfl | h2
        · exact Or.inl (by simp)
        · exact Or.inr h2

theorem splitWs_mem (s : Str) :
    ∀ u ∈ splitWs s, u ≠ [] ∧ ∀ c ∈ u, c.isWhitespace = false ∧ c ∈ s := by
  intro u hu
  have := splitWsAux_mem s [] (by simp) u hu
  exact ⟨this.1, fun c hc => ⟨(this.2 c hc).1, by
    rcases (this.2 c hc).2 with h | h
    · exact h
    · exact absurd h (by simp)⟩⟩

theorem splitWs_trim (s : Str) : splitWs (trim s) = splitWs s := by
  have hws : ∀ c ∈ ((s.dropWhile Char.isWhitespace).reverse.takeWhile
      Char.isWhitespace).reverse, c.isWhitespace = true := by
    intro c hc
    rw [List.mem_reverse] at hc
    exact List.mem_takeWhile_imp hc
  have hshape : s.dropWhile Char.isWhitespace =
      trim s ++ ((s.dropWhile Char.isWhitespace).reverse.takeWhile
        Char.isWhitespace).reverse := by
    unfold trim
    rw [← List.reverse_append, List.takeWhile_append_dropWhile,
      List.reverse_reverse]
  rw [← splitWs_dropWhile s, hshape, splitWs, splitWs,
    splitWsAux_append_ws _ hws (trim s) []]

theorem intercalate_single (sep x : Str) : List.intercalate sep [x] = x := by
  simp [List.intercalate]

theorem intercalate_cons_cons (sep a b : Str) (l : List Str) :
    List.intercalate sep (a :: b :: l) = a ++ sep ++ List.intercalate sep (b :: l) := by
  rw [List.intercalate, List.intersperse_cons_cons, List.flatten_cons,
    List.flatten_cons, List.intercalate]
  simp

theorem splitWs_name_values (d : Str) (c0 : Char) (cs0 : Str) (hd : d = c0 :: cs0)
    (hc0 : c0.isWhitespace = false) :
    splitWs d = d.takeWhile (fun c => !c.isWhitespace) :: splitWs (cspValues d) := by
  subst hd
  set nm := (c0 :: cs0).takeWhile (fun x => !x.isWhitespace) with hnm
  set rst := (c0 :: cs0).dropWhile (fun x => !x.isWhitespace) with hrst
  have happ : nm ++ rst = c0 :: cs0 := List.takeWhile_append_dropWhile _ _
  have hdrop : (c0 :: cs0).drop nm.length = rst := by
    have h0 := List.drop_left nm rst
    rw [happ] at h0
    exact h0
  have hmemname : ∀ x ∈ nm, x.isWhitespace = false := by
    intro x hx
    rw [hnm] at hx
    simpa using List.mem_takeWhile_imp hx
  have hnename : nm ≠ [] := by
    rw [hnm, List.takeWhile_cons, if_pos (by simp [hc0])]
    simp
  unfold cspValues
  rw [hdrop]
  cases hrest0 : rst with
  | nil =>
    have hfull : nm = c0 :: cs0 := by
      rw [hrest0] at happ
      simpa using happ
    rw [← hfull, splitWs_single nm hnename hmemname]
    rfl
  | cons r rs =>
    have hr : r.isWhitespace = true := by
      have hh : rst.head? = some r := by rw [hrest0]; rfl
      rw [hrst] at hh
      have h2 := head?_dropWhile_not _ _ _ hh
      simpa using h2
    have hsplit : splitWs (c0 :: cs0) = nm :: splitWs rs := by
      conv_lhs => rw [← happ, hrest0]
      exact splitWs_token_cons nm r rs hnename hmemname hr
    rw [hsplit, trim_cons_ws r rs hr, splitWs_trim]

theorem mem_intercalate_space (toks : List Str) (c : Char)
    (h : c ∈ List.intercalate [' '] toks) : c = ' ' ∨ ∃ u ∈ toks, c ∈ u := by
  induction toks with
  | nil => exact absurd h (by simp [List.intercalate])
  | cons t rest ih =>
    cases rest with
    | nil =>
      rw [intercalate_single] at h
      exact Or.inr ⟨t, by simp, h⟩
    | cons t2 rest2 =>
      rw [intercalate_cons_cons] at h
      rcases List.mem_append.mp h with h1 | h2
      · rcases List.mem_append.mp h1 with h3 | h4
        · exact Or.inr ⟨t, by simp, h3⟩
        · left
          simpa using h4
      · rcases ih h2 with h3 | ⟨u, hu, hcu⟩
        · exact Or.inl h3
        · exact Or.inr ⟨u, by simp [List.mem_cons.mp hu], hcu⟩

theorem getLast?_mem_str (l : Str) (c : Char) (h : l.getLast? = some c) : c ∈ l := by
  rw [← List.head?_reverse] at h
  rw [← List.mem_reverse]
  exact List.mem_of_mem_head? h

theorem intercalate_space_getLast?_not_ws (toks : List Str)
    (h : ∀ u ∈ toks, u ≠ [] ∧ ∀ c ∈ u, c.isWhitespace = false) :
    ∀ c, (List.intercalate [' '] toks).getLast? = some c →
      c.isWhitespace = false := by
  induction toks with
  | nil =>
    intro c hc
    exact absurd hc (by simp [List.intercalate])
  | cons t rest ih =>
    intro c hc
    cases rest with
    | nil =>
      rw [intercalate_single] at hc
      exact (h t (by simp)).2 c (getLast?_mem_str t c hc)
    | cons t2 rest2 =>
      have hX : List.intercalate [' '] (t2 :: rest2) ≠ [] := by
        cases rest2 with
        | nil =>
          rw [intercalate_single]
          exact (h t2 (by simp)).1
        | cons t3 rest3 =>
          rw [intercalate_cons_cons]
          intro hcontra
          exact absurd (List.append_eq_nil.mp
            (List.append_eq_nil.mp hcontra).1).1 (h t2 (by simp)).1
      cases hXl : (List.intercalate [' '] (t2 :: rest2)).getLast? with
      | none => exact absurd (List.getLast?_eq_none_iff.mp hXl) hX
      | some x =>
        have hcx : c = x := by
          rw [intercalate_cons_cons] at hc
          rw [List.append_assoc, List.getLast?_append, List.getLast?_append,
            hXl] at hc
          simp only [Option.or] at hc
          injection hc with h2
          exact h2.symm
        have hrest : ∀ u ∈ t2 :: rest2, u ≠ [] ∧ ∀ c ∈ u, c.isWhitespace = false :=
          fun u hu => h u (by simp [List.mem_cons.mp hu])
        rw [hcx]
        exact ih hrest x hXl

theorem mem_cspDirectives_facts (csp d : Str) (h : d ∈ cspDirectives csp) :
    d ≠ [] ∧ trim d = d ∧ ∀ c ∈ d, c ≠ ';' := by
  unfold cspDirectives at h
  obtain ⟨hmem, hne⟩ := List.mem_filter.mp h
  obtain ⟨piece, hpiece, hd⟩ := List.mem_map.mp hmem
  refine ⟨by simpa using hne, ?_, ?_⟩
  · rw [← hd, trim_trim]
  · intro c hc
    rw [← hd] at hc
    exact (splitOnChar_chars ';' csp piece hpiece c (trim_subset piece c hc)).1

theorem cspDirectives_intercalate (rs : List Str)
    (h : ∀ r ∈ rs, r ≠ [] ∧ trim r = r ∧ ∀ c ∈ r, c ≠ ';') :
    cspDirectives (List.intercalate (strL "; ") rs) = rs := by
  induction rs with
  | nil => rfl
  | cons r rest ih =>
    have hr := h r (by simp)
    cases rest with
    | nil =>
      rw [intercalate_single]
      unfold cspDirectives
      rw [splitOnChar_no_sep ';' r hr.2.2, List.map_singleton, hr.2.1,
        List.filter_singleton]
      simp [hr.1]
    | cons r2 rest2 =>
      have h2 : ∀ u ∈ r2 :: rest2, u ≠ [] ∧ trim u = u ∧ ∀ c ∈ u, c ≠ ';' :=
        fun u hu => h u (by simp [List.mem_cons.mp hu])
      have hshape : List.intercalate (strL "; ") (r :: r2 :: rest2) =
          r ++ ';' :: ' ' :: List.intercalate (strL "; ") (r2 :: rest2) := by
        rw [intercalate_cons_cons, List.append_assoc]
        rfl
      obtain ⟨p, ps, hX⟩ : ∃ p ps,
          splitOnChar ';' (List.intercalate (strL "; ") (r2 :: rest2)) = p :: ps := by
        cases hX : splitOnChar ';' (List.intercalate (strL "; ") (r2 :: rest2)) with
        | nil => exact absurd hX (splitOnChar_ne_nil _ _)
        | cons p ps => exact ⟨p, ps, rfl⟩
      have hsp : splitOnChar ';' (' ' :: List.intercalate (strL "; ") (r2 :: rest2)) =
          (' ' :: p) :: ps := by
        rw [splitOnChar_cons_eq ';' ' ' _ p ps hX, if_neg (by decide)]
      unfold cspDirectives
      rw [hshape, splitOnChar_append ';' r _ hr.2.2, hsp, List.map_cons,
        List.map_cons, hr.2.1, trim_cons_ws ' ' p (by decide), List.filter_cons,
        if_pos (by simpa using hr.1)]
      have htail : (trim p :: ps.map trim).filter (fun d => decide (d ≠ [])) =
          r2 :: rest2 := by
        have := ih h2
        unfold cspDirectives at this
        rw [hX, List.map_cons] at this
        exact this
      rw [htail]

theorem takeWhile_eq_self_of (t : Str) (p : Char → Bool) (h : ∀ c ∈ t, p c = true) :
    t.takeWhile p = t := by
  induction t with
  | nil => rfl
  | cons c cs ih =>
    rw [List.takeWhile_cons, if_pos (h c (by simp)), ih fun x hx => h x (by simp [hx])]

theorem takeWhile_token_append (t : Str) (ht : ∀ c ∈ t, c.isWhitespace = false)
    (X : Str) :
    (t ++ ' ' :: X).takeWhile (fun c => !c.isWhitespace) = t := by
  have hself : t.takeWhile (fun c => !c.isWhitespace) = t :=
    takeWhile_eq_self_of t _ (fun c hc => by simp [ht c hc])
  rw [List.takeWhile_append, hself, if_pos rfl, List.takeWhile_cons,
    if_neg (by decide)]
  simp

theorem lower_name (d : Str) :
    lowerStr (d.takeWhile (fun c => !c.isWhitespace)) = directiveName (lowerStr d) := by
  unfold directiveName
  rw [takeWhile_lowerStr]

theorem lowerStr_token_append (nm ic : Str) :
    lowerStr (nm ++ ' ' :: ic) = lowerStr nm ++ ' ' :: lowerStr ic := by
  rw [lowerStr_append, lowerStr_cons]
  have : Char.toLower ' ' = ' ' := by decide
  rw [this]

theorem nonws_of_lower_nonws (d : Str) (lit : Str)
    (hlit : ∀ c ∈ lit, c.isWhitespace = false) (h : lowerStr d = lit) :
    ∀ c ∈ d, c.isWhitespace = false := by
  intro c hc
  have : Char.toLower c ∈ lit := by
    rw [← h]
    exact List.mem_map_of_mem Char.toLower hc
  rw [← toLower_isWhitespace]
  exact hlit _ this

theorem cspValues_eq_nil_of_nonws (d : Str) (h : ∀ c ∈ d, c.isWhitespace = false) :
    cspValues d = [] := by
  unfold cspValues
  rw [takeWhile_eq_self_of d _ (fun c hc => by simp [h c hc]), List.drop_length]
  rfl

theorem isPrefixOf_cons_ne (a b : Char) (as bs : Str) (h : (a == b) = false) :
    (a :: as).isPrefixOf (b :: bs) = false := by
  simp only [List.isPrefixOf, h, Bool.false_and]

theorem cons_beq_ne (a b : Char) (as bs : Str) (h : (a == b) = false) :
    ((a :: as) == (b :: bs)) = false := by
  have : ((a :: as) == (b :: bs)) = ((a == b) && (as == bs)) := rfl
  rw [this, h, Bool.false_and]

theorem isScriptSrcDir_script_append (Z : Str) :
    isScriptSrcDir (strL "script-src" ++ ' ' :: Z) = true := by
  unfold isScriptSrcDir
  have hpre : (strL "script-src ").isPrefixOf (strL "script-src" ++ ' ' :: Z) = true := by
    rw [List.isPrefixOf_iff_prefix]
    exact ⟨Z, rfl⟩
  rw [hpre]
  simp

theorem isScriptSrcDir_elem_append (Z : Str) :
    isScriptSrcDir (strL "script-src-elem" ++ ' ' :: Z) = true := by
  unfold isScriptSrcDir
  have hpre : (strL "script-src-elem ").isPrefixOf
      (strL "script-src-elem" ++ ' ' :: Z) = true := by
    rw [List.isPrefixOf_iff_prefix]
    exact ⟨Z, rfl⟩
  rw [hpre]
  simp

theorem isScriptSrcDir_default_append (Z : Str) :
    isScriptSrcDir (strL "default-src" ++ ' ' :: Z) = false := by
  unfold isScriptSrcDir
  have h1 : strL "default-src" ++ ' ' :: Z = 'd' :: (strL "efault-src" ++ ' ' :: Z) := rfl
  have h2 : strL "script-src " = 's' :: strL "cript-src " := rfl
  have h3 : strL "script-src" = 's' :: strL "cript-src" := rfl
  have h4 : strL "script-src-elem " = 's' :: strL "cript-src-elem " := rfl
  have h5 : strL "script-src-elem" = 's' :: strL "cript-src-elem" := rfl
  rw [h1, h2, h3, h4, h5, isPrefixOf_cons_ne _ _ _ _ (by decide),
    isPrefixOf_cons_ne _ _ _ _ (by decide), cons_beq_ne _ _ _ _ (by decide),
    cons_beq_ne _ _ _ _ (by decide)]
  rfl

theorem isDefaultSrcDir_default_append (Z : Str) :
    isDefaultSrcDir (strL "default-src" ++ ' ' :: Z) = true := by
  unfold isDefaultSrcDir
  have hpre : (strL "default-src ").isPrefixOf (strL "default-src" ++ ' ' :: Z) = true := by
    rw [List.isPrefixOf_iff_prefix]
    exact ⟨Z, rfl⟩
  rw [hpre]
  simp

theorem getLast?_append_cons (l : Str) (c : Char) (m : Str) (hm : m ≠ []) :
    (l ++ c :: m).getLast? = m.getLast? := by
  cases hml : m.getLast? with
  | none => exact absurd (List.getLast?_eq_none_iff.mp hml) hm
  | some x =>
    have : c :: m = [c] ++ m := rfl
    rw [List.getLast?_append, this, List.getLast?_append, hml]
    simp [Option.or]

theorem intercalate_space_ne_nil (toks : List Str) (hne : toks ≠ [])
    (h : ∀ u ∈ toks, u ≠ []) : List.intercalate [' '] toks ≠ [] := by
  cases toks with
  | nil => exact absurd rfl hne
  | cons t rest =>
    cases rest with
    | nil =>
      rw [intercalate_single]
      exact h t (by simp)
    | cons t2 rest2 =>
      rw [intercalate_cons_cons]
      intro hcontra
      exact absurd (List.append_eq_nil.mp (List.append_eq_nil.mp hcontra).1).1
        (h t (by simp))

theorem processDirective_some (hss : Bool) (d : Str)
    (hne : d ≠ []) (htr : trim d = d) (hnosemi : ∀ c ∈ d, c ≠ ';')
    (hrep1 : directiveName (lowerStr d) ≠ strL "report-uri")
    (hrep2 : directiveName (lowerStr d) ≠ strL "report-to")
    (hkeep : ∀ v ∈ splitWs d, keepCspValue v = true)
    (hvals : (isScriptSrcDir (lowerStr d) ||
        (!hss && isDefaultSrcDir (lowerStr d))) = true →
      splitWs (cspValues d) ≠ []) :
    ∃ e, processDirective hss d = some e ∧ splitWs e = splitWs d ∧ e ≠ [] ∧
      trim e = e ∧ (∀ c ∈ e, c ≠ ';') ∧
      isScriptSrcDir (lowerStr e) = isScriptSrcDir (lowerStr d) ∧
      processDirective hss e = some e := by
  have hrep : ¬(directiveName (lowerStr d) = strL "report-uri" ∨
      directiveName (lowerStr d) = strL "report-to") := not_or.mpr ⟨hrep1, hrep2⟩
  have h0 : processDirective hss d =
      (if directiveName (lowerStr d) = strL "report-uri" ∨
          directiveName (lowerStr d) = strL "report-to" then none
       else if (isScriptSrcDir (lowerStr d) ||
          (!hss && isDefaultSrcDir (lowerStr d))) = true then
         (if (splitWs (cspValues d)).filter keepCspValue = [] then none
          else some ((d.takeWhile (fun c => !c.isWhitespace)) ++
            ' ' :: List.intercalate [' ']
              ((splitWs (cspValues d)).filter keepCspValue)))
       else some d) := rfl
  by_cases haff : (isScriptSrcDir (lowerStr d) ||
      (!hss && isDefaultSrcDir (lowerStr d))) = true
  · have hvne := hvals haff
    obtain ⟨c0, cs0, hd0⟩ : ∃ c0 cs0, d = c0 :: cs0 := by
      cases d with
      | nil => exact absurd rfl hne
      | cons a b => exact ⟨a, b, rfl⟩
    have hc0 : c0.isWhitespace = false := head_not_ws_of_trim_eq d htr c0 cs0 hd0
    have hdecomp := splitWs_name_values d c0 cs0 hd0 hc0
    set nm := d.takeWhile (fun c => !c.isWhitespace) with hnm
    set toks := splitWs (cspValues d) with htoks
    have hnm0 : nm = c0 :: cs0.takeWhile (fun c => !c.isWhitespace) := by
      rw [hnm, hd0, List.takeWhile_cons, if_pos (by simp [hc0])]
    have hnm_nonws : ∀ x ∈ nm, x.isWhitespace = false := by
      intro x hx
      rw [hnm] at hx
      simpa using List.mem_takeWhile_imp hx
    have hnm_ne : nm ≠ [] := by
      rw [hnm0]
      simp
    have hnm_sub : ∀ c ∈ nm, c ∈ d := by
      intro c hc
      rw [hnm] at hc
      exact (List.takeWhile_sublist _).mem hc
    have htoks_facts : ∀ u ∈ toks, u ≠ [] ∧
        ∀ c ∈ u, c.isWhitespace = false ∧ c ∈ cspValues d := by
      intro u hu
      rw [htoks] at hu
      exact splitWs_mem _ u hu
    have hvals_sub : ∀ c ∈ cspValues d, c ∈ d := by
      intro c hc
      unfold cspValues at hc
      exact List.drop_subset _ _ (trim_subset _ c hc)
    have hkeep_toks : ∀ v ∈ toks, keepCspValue v = true := by
      intro v hv
      apply hkeep
      rw [hdecomp]
      exact List.mem_cons_of_mem _ hv
    have hfilter : toks.filter keepCspValue = toks := List.filter_eq_self.mpr hkeep_toks
    set ic := List.intercalate [' '] toks with hic
    set e := nm ++ ' ' :: ic with he
    have hpd : processDirective hss d = some e := by
      rw [h0, if_neg hrep, if_pos haff, hfilter, if_neg hvne]
    have htoks_ne_el : ∀ u ∈ toks, u ≠ [] := fun u hu => (htoks_facts u hu).1
    have htoks_nonws : ∀ u ∈ toks, u ≠ [] ∧ ∀ c ∈ u, c.isWhitespace = false :=
      fun u hu => ⟨(htoks_facts u hu).1, fun c hc => ((htoks_facts u hu).2 c hc).1⟩
    have hic_ne : ic ≠ [] := by
      rw [hic]
      exact intercalate_space_ne_nil toks hvne htoks_ne_el
    have hsplitE : splitWs e = nm :: toks := by
      rw [he, splitWs_token_cons nm ' ' ic hnm_ne hnm_nonws (by decide), hic,
        splitWs_intercalate toks htoks_nonws]
    have hsplit_d : splitWs e = splitWs d := by rw [hsplitE, hdecomp]
    have he_ne : e ≠ [] := by
      rw [he]
      intro hcontra
      exact hnm_ne (List.append_eq_nil.mp hcontra).1
    have he_head : e.head? = some c0 := by
      rw [he, hnm0]
      rfl
    have he_last : ∀ c, e.getLast? = some c → c.isWhitespace = false := by
      intro c hc
      rw [he, getLast?_append_cons nm ' ' ic hic_ne, hic] at hc
      exact intercalate_space_getLast?_not_ws toks htoks_nonws c hc
    have he_trim : trim e = e := by
      apply trim_eq_self e ?hh he_last
      intro c hcc
      rw [he_head] at hcc
      injection hcc with h2
      rw [← h2]
      exact hc0
    have he_nosemi : ∀ c ∈ e, c ≠ ';' := by
      intro c hc
      rw [he] at hc
      rcases List.mem_append.mp hc with h1 | h2
      · exact hnosemi c (hnm_sub c h1)
      · rcases List.mem_cons.mp h2 with rfl | h3
        · decide
        · rw [hic] at h3
          rcases mem_intercalate_space toks c h3 with rfl | ⟨u, hu, hcu⟩
          · decide
          · exact hnosemi c (hvals_sub c ((htoks_facts u hu).2 c hcu).2)
    have hlow_e : lowerStr e = lowerStr nm ++ ' ' :: lowerStr ic := by
      rw [he, lowerStr_token_append]
    have hlow_nm : lowerStr nm = directiveName (lowerStr d) := by
      rw [hnm, lower_name]
    have hname_lit :
        (∃ Y, lowerStr d = strL "script-src" ++ ' ' :: Y ∧
          directiveName (lowerStr d) = strL "script-src") ∨
        (∃ Y, lowerStr d = strL "script-src-elem" ++ ' ' :: Y ∧
          directiveName (lowerStr d) = strL "script-src-elem") ∨
        (isScriptSrcDir (lowerStr d) = false ∧
          ∃ Y, lowerStr d = strL "default-src" ++ ' ' :: Y ∧
            directiveName (lowerStr d) = strL "default-src") := by
      by_cases hscript : isScriptSrcDir (lowerStr d) = true
      · unfold isScriptSrcDir at hscript
        simp only [Bool.or_eq_true] at hscript
        rcases hscript with ((ha | hb) | hc) | hd
        · obtain ⟨Y, hY⟩ := List.isPrefixOf_iff_prefix.mp ha
          have hL : lowerStr d = strL "script-src" ++ ' ' :: Y := by
            rw [← hY]
            rfl
          refine Or.inl ⟨Y, hL, ?_⟩
          unfold directiveName
          rw [hL]
          exact takeWhile_token_append _ (by decide) _
        · have hbe : lowerStr d = strL "script-src" := eq_of_beq hb
          have hnil := cspValues_eq_nil_of_nonws d
            (nonws_of_lower_nonws d _ (by decide) hbe)
          exact absurd (by rw [htoks, hnil]; rfl) hvne
        · obtain ⟨Y, hY⟩ := List.isPrefixOf_iff_prefix.mp hc
          have hL : lowerStr d = strL "script-src-elem" ++ ' ' :: Y := by
            rw [← hY]
            rfl
          refine Or.inr (Or.inl ⟨Y, hL, ?_⟩)
          unfold directiveName
          rw [hL]
          exact takeWhile_token_append _ (by decide) _
        · have hbe : lowerStr d = strL "script-src-elem" := eq_of_beq hd
          have hnil := cspValues_eq_nil_of_nonws d
            (nonws_of_lower_nonws d _ (by decide) hbe)
          exact absurd (by rw [htoks, hnil]; rfl) hvne
      · have hsf : isScriptSrcDir (lowerStr d) = false := by
          rwa [Bool.not_eq_true] at hscript
        rw [Bool.or_eq_true] at haff
        rcases haff with haff1 | haff2
        · exact absurd haff1 hscript
        · rw [Bool.and_eq_true] at haff2
          have hdef := haff2.2
          unfold isDefaultSrcDir at hdef
          rw [Bool.or_eq_true] at hdef
          rcases hdef with hda | hdb
          · obtain ⟨Y, hY⟩ := List.isPrefixOf_iff_prefix.mp hda
            have hL : lowerStr d = strL "default-src" ++ ' ' :: Y := by
              rw [← hY]
              rfl
            refine Or.inr (Or.inr ⟨hsf, Y, hL, ?_⟩)
            unfold directiveName
            rw [hL]
            exact takeWhile_token_append _ (by decide) _
          · have hbe : lowerStr d = strL "default-src" := eq_of_beq hdb
            have hnil := cspValues_eq_nil_of_nonws d
              (nonws_of_lower_nonws d _ (by decide) hbe)
            exact absurd (by rw [htoks, hnil]; rfl) hvne
    have hscr_eq : isScriptSrcDir (lowerStr e) = isScriptSrcDir (lowerStr d) := by
      rcases hname_lit with ⟨Y, hL, hDn⟩ | ⟨Y, hL, hDn⟩ | ⟨hsf, Y, hL, hDn⟩
      · rw [hlow_e, hlow_nm, hDn, isScriptSrcDir_script_append, hL,
          isScriptSrcDir_script_append]
      · rw [hlow_e, hlow_nm, hDn, isScriptSrcDir_elem_append, hL,
          isScriptSrcDir_elem_append]
      · rw [hlow_e, hlow_nm, hDn, isScriptSrcDir_default_append, hsf]
    have haff_e : (isScriptSrcDir (lowerStr e) ||
        (!hss && isDefaultSrcDir (lowerStr e))) = true := by
      rcases hname_lit with ⟨Y, hL, hDn⟩ | ⟨Y, hL, hDn⟩ | ⟨hsf, Y, hL, hDn⟩
      · rw [hlow_e, hlow_nm, hDn, isScriptSrcDir_script_append]
        rfl
      · rw [hlow_e, hlow_nm, hDn, isScriptSrcDir_elem_append]
        rfl
      · have hnss : (!hss) = true := by
          rw [Bool.or_eq_true] at haff
          rcases haff with haff1 | haff2
          · exact absurd haff1 (by simp [hsf])
          · exact ((Bool.and_eq_true _ _).mp haff2).1
        rw [hlow_e, hlow_nm, hDn, isScriptSrcDir_default_append,
          isDefaultSrcDir_default_append, hnss]
        rfl
    have hlow_nm_nonws : ∀ c ∈ lowerStr nm, c.isWhitespace = false := by
      intro c hcc
      obtain ⟨x, hx, rfl⟩ := List.mem_map.mp hcc
      rw [toLower_isWhitespace]
      exact hnm_nonws x hx
    have hDn_e : directiveName (lowerStr e) = directiveName (lowerStr d) := by
      unfold directiveName
      rw [hlow_e, takeWhile_token_append (lowerStr nm) hlow_nm_nonws (lowerStr ic)]
      exact hlow_nm
    have hnameE : e.takeWhile (fun c => !c.isWhitespace) = nm := by
      rw [he]
      exact takeWhile_token_append nm hnm_nonws ic
    have hvalsE : splitWs (cspValues e) = toks := by
      have hde := splitWs_name_values e c0
        (cs0.takeWhile (fun c => !c.isWhitespace) ++ ' ' :: ic)
        (by rw [he, hnm0]; rfl) hc0
      rw [hsplitE, hnameE] at hde
      injection hde with h1 h2
      exact h2.symm
    have hpd2 : processDirective hss e = some e := by
      have h0e : processDirective hss e =
          (if directiveName (lowerStr e) = strL "report-uri" ∨
              directiveName (lowerStr e) = strL "report-to" then none
           else if (isScriptSrcDir (lowerStr e) ||
              (!hss && isDefaultSrcDir (lowerStr e))) = true then
             (if (splitWs (cspValues e)).filter keepCspValue = [] then none
              else some ((e.takeWhile (fun c => !c.isWhitespace)) ++
                ' ' :: List.intercalate [' ']
                  ((splitWs (cspValues e)).filter keepCspValue)))
           else some e) := rfl
      rw [h0e, hDn_e, if_neg hrep, if_pos haff_e, hvalsE, hfilter, if_neg hvne,
        hnameE, ← hic, ← he]
    exact ⟨e, hpd, hsplit_d, he_ne, he_trim, he_nosemi, hscr_eq, hpd2⟩
  · have hpd : processDirective hss d = some d := by
      rw [h0, if_neg hrep, if_neg haff]
    exact ⟨d, hpd, rfl, hne, htr, hnosemi, rfl, hpd⟩

theorem forall2_of_exists {R : Str → Str → Prop} (ds : List Str)
    (h : ∀ d ∈ ds, ∃ e, R d e) : ∃ rs, List.Forall₂ R ds rs := by
  induction ds with
  | nil => exact ⟨[], List.Forall₂.nil⟩
  | cons d rest ih =>
    obtain ⟨e, he⟩ := h d (by simp)
    obtain ⟨rs, hrs⟩ := ih fun x hx => h x (by simp [hx])
    exact ⟨e :: rs, List.Forall₂.cons he hrs⟩

theorem filterMap_eq_of_forall2 {R : Str → Str → Prop} (f : Str → Option Str)
    (hproj : ∀ d e, R d e → f d = some e) :
    ∀ (ds rs : List Str), List.Forall₂ R ds rs → ds.filterMap f = rs := by
  intro ds rs h
  induction h with
  | nil => rfl
  | cons hde _ ih => rw [List.filterMap_cons, hproj _ _ hde, ih]

theorem map_eq_of_forall2 {R : Str → Str → Prop} {α : Type}
    (g : Str → α) (hproj : ∀ d e, R d e → g e = g d) :
    ∀ (ds rs : List Str), List.Forall₂ R ds rs → rs.map g = ds.map g := by
  intro ds rs h
  induction h with
  | nil => rfl
  | cons hde _ ih => simp only [List.map_cons, hproj _ _ hde, ih]

theorem any_eq_of_forall2 {R : Str → Str → Prop} (g : Str → Bool)
    (hproj : ∀ d e, R d e → g e = g d) :
    ∀ (ds rs : List Str), List.Forall₂ R ds rs → rs.any g = ds.any g := by
  intro ds rs h
  induction h with
  | nil => rfl
  | cons hde _ ih => simp only [List.any_cons, hproj _ _ hde, ih]

theorem forall_right_of_forall2 {R : Str → Str → Prop} (P : Str → Prop)
    (hproj : ∀ d e, R d e → P e) :
    ∀ (ds rs : List Str), List.Forall₂ R ds rs → ∀ e ∈ rs, P e := by
  intro ds rs h
  induction h with
  | nil => intro e he; exact absurd he (by simp)
  | cons hde _ ih =>
    intro e he
    rcases List.mem_cons.mp he with rfl | h2
    · exact hproj _ _ hde
    · exact ih e h2

theorem filterMap_id_of_all (f : Str → Option Str) (l : List Str)
    (h : ∀ x ∈ l, f x = some x) : l.filterMap f = l := by
  induction l with
  | nil => rfl
  | cons x rest ih =>
    rw [List.filterMap_cons, h x (by simp), ih fun y hy => h y (by simp [hy])]

/-- Claim C4, counterexample: the CSP value `script-src str-dyn self` (with
both source keywords quoted, str-dyn being strict-dynamic) has no hash or
nonce value and no report directive, yet sanitisation drops the
strict-dynamic keyword, so the result differs from the input by more than
whitespace normalisation. -/
theorem sanitize_csp_cex :
    (∀ d ∈ cspDirectives cspCexInput,
      directiveName (lowerStr d) ≠ strL "report-uri" ∧
      directiveName (lowerStr d) ≠ strL "report-to") ∧
    (∀ d ∈ cspDirectives cspCexInput, ∀ v ∈ splitWs d,
      (!((qstr "sha256-").isPrefixOf (lowerStr v)) &&
        !((qstr "sha384-").isPrefixOf (lowerStr v)) &&
        !((qstr "sha512-").isPrefixOf (lowerStr v)) &&
        !((qstr "nonce-").isPrefixOf (lowerStr v))) = true) ∧
    sanitize_csp cspCexInput = some cspCexOutput ∧
    cspTokens cspCexOutput ≠ cspTokens cspCexInput := by
  exact ⟨by decide, by decide, by rfl, by decide⟩

/-- Claim C4 (amended): for a CSP value whose directives contain no
report-uri or report-to directive and no hash, nonce or strict-dynamic
value, in which every script-src, script-src-elem or fallback default-src
directive keeps at least one value and at least one directive is present,
`sanitize_csp` returns Some of the same directive list up to whitespace
normalisation, and that output is a fixed point of `sanitize_csp`. -/
theorem sanitize_csp_pure (csp : Str)
    (h1 : ∀ d ∈ cspDirectives csp,
      directiveName (lowerStr d) ≠ strL "report-uri" ∧
      directiveName (lowerStr d) ≠ strL "report-to")
    (h2 : ∀ d ∈ cspDirectives csp, ∀ v ∈ splitWs d, keepCspValue v = true)
    (h3 : ∀ d ∈ cspDirectives csp,
      (isScriptSrcDir (lowerStr d) ||
        (!((cspDirectives csp).any fun x => isScriptSrcDir (lowerStr x)) &&
          isDefaultSrcDir (lowerStr d))) = true → splitWs (cspValues d) ≠ [])
    (h4 : cspDirectives csp ≠ []) :
    ∃ out, sanitize_csp csp = some out ∧ cspTokens out = cspTokens csp ∧
      sanitize_csp out = some out := by
  set ds := cspDirectives csp with hds
  set hss := ds.any (fun x => isScriptSrcDir (lowerStr x)) with hhss
  have hex : ∀ d ∈ ds, ∃ e,
      processDirective hss d = some e ∧ splitWs e = splitWs d ∧ e ≠ [] ∧
      trim e = e ∧ (∀ c ∈ e, c ≠ ';') ∧
      isScriptSrcDir (lowerStr e) = isScriptSrcDir (lowerStr d) ∧
      processDirective hss e = some e := by
    intro d hd
    have hf := mem_cspDirectives_facts csp d hd
    exact processDirective_some hss d hf.1 hf.2.1 hf.2.2 (h1 d hd).1 (h1 d hd).2
      (h2 d hd) (h3 d hd)
  obtain ⟨rs, hrs⟩ := forall2_of_exists ds hex
  have hfm : ds.filterMap (processDirective hss) = rs :=
    filterMap_eq_of_forall2 (processDirective hss) (fun d e hde => hde.1) ds rs hrs
  have hrs_ne : rs ≠ [] := by
    intro hcontra
    have := hrs.length_eq
    rw [hcontra] at this
    exact h4 (List.length_eq_zero.mp this)
  set out := List.intercalate (strL "; ") rs with hout
  have hfacts : ∀ e ∈ rs, e ≠ [] ∧ trim e = e ∧ ∀ c ∈ e, c ≠ ';' :=
    forall_right_of_forall2 _ (fun d e hde => ⟨hde.2.2.1, hde.2.2.2.1, hde.2.2.2.2.1⟩)
      ds rs hrs
  have hround : cspDirectives out = rs := by
    rw [hout]
    exact cspDirectives_intercalate rs hfacts
  have hsan : sanitize_csp csp = some out := by
    have h0 : sanitize_csp csp =
        (if ds.filterMap (processDirective hss) = [] then none
         else some (List.intercalate (strL "; ")
           (ds.filterMap (processDirective hss)))) := rfl
    rw [h0, hfm, if_neg hrs_ne]
  refine ⟨out, hsan, ?_, ?_⟩
  · unfold cspTokens
    rw [hround, ← hds]
    exact map_eq_of_forall2 splitWs (fun d e hde => hde.2.1) ds rs hrs
  · have h0 : sanitize_csp out =
        (if (cspDirectives out).filterMap (processDirective
            ((cspDirectives out).any fun d => isScriptSrcDir (lowerStr d))) = []
         then none
         else some (List.intercalate (strL "; ")
           ((cspDirectives out).filterMap (processDirective
             ((cspDirectives out).any fun d => isScriptSrcDir (lowerStr d)))))) := rfl
    have hany : rs.any (fun d => isScriptSrcDir (lowerStr d)) = hss := by
      rw [hhss]
      exact any_eq_of_forall2 _ (fun d e hde => hde.2.2.2.2.2.1) ds rs hrs
    have hid : rs.filterMap (processDirective hss) = rs :=
      filterMap_id_of_all _ rs
        (forall_right_of_forall2 _ (fun d e hde => hde.2.2.2.2.2.2) ds rs hrs)
    rw [h0, hround, hany, hid, if_neg hrs_ne]

theorem sanitize_csp_pure_witness :
    ∃ out, sanitize_csp (strL "img-src " ++ qstr "self" ++ [quoteC]) = some out ∧
      cspTokens out = cspTokens (strL "img-src " ++ qstr "self" ++ [quoteC]) ∧
      sanitize_csp out = some out :=
  sanitize_csp_pure (strL "img-src " ++ qstr "self" ++ [quoteC])
    (by decide) (by decide) (by decide) (by decide)

end Bombadil
